import Mathlib

/-!
# Verification of the `BPlusTree` repository (`BPlusTree.py`)

A shallow embedding of the B+ tree implementation in `BPlusTree.py`.

The Python program consists of three classes:

* `BPTreeLeaf` — a mutable heap object with fields `_keys` (sorted list),
  `_next` (reference to the next leaf or `None`) and `_capacity`;
* `BPTreeNode` — an internal node with `_keys` and `_pointers`
  (children, one more than keys) and `_capacity`;
* `BPTree` — the root holder with `_tree` (a leaf or node) and `_capacity`.

Leaves are aliased: a leaf is referenced both from its parent's pointer slot
and from the previous leaf's `_next` field, and `BPTreeLeaf.insert` mutates
the leaf in place.  To model this faithfully the embedding stores all leaves
in an explicit heap ("arena"): a `List LeafRec` indexed by allocation order,
with `next` an arena index.  Internal nodes have a unique owner and are
mutated only through their owner, so they are embedded functionally.
Keys are `Nat` (the driver code inserts machine integers; any totally
ordered type would do).
-/

/-- A leaf object on the Python heap: `BPTreeLeaf._keys` and
`BPTreeLeaf._next` (an arena index, `none` for Python's `None`).
The `_capacity` field is the same for every node and is threaded
as a parameter instead. -/
structure LeafRec where
  keys : List Nat
  next : Option Nat
  deriving Repr, DecidableEq

/-- A reference to a node of the tree: either a leaf (an index into the
leaf arena) or an internal `BPTreeNode` with separator keys and children
(`_pointers`). -/
inductive NodeT where
  | leaf (i : Nat)
  | node (keys : List Nat) (children : List NodeT)
  deriving Repr

/-- `BPTree`: the root holder.  `arena` is the leaf heap. -/
structure BPTree where
  capacity : Nat
  arena : List LeafRec
  root : NodeT
  deriving Repr

/-! ## Python list primitives -/

/-- Python's `list.insert(i, x)`: inserts `x` before position `i`
(clamping `i` to the list length, as Python does). -/
def pyInsert (l : List α) (i : Nat) (x : α) : List α :=
  l.take i ++ x :: l.drop i

/-- Python's `list.remove(x)`: removes the first element equal to `x`.
(Python raises `ValueError` when `x` is absent; at its single call site,
`BPTreeNode.insert_here`, the removed key was just read from the list,
so it is always present.) -/
def pyRemove : List Nat → Nat → List Nat
  | [], _ => []
  | a :: t, x => if a = x then t else a :: pyRemove t x

/-- The loop of CPython's `bisect.bisect_left`:
`while lo < hi: mid = (lo+hi)//2; if a[mid] < x: lo = mid+1 else: hi = mid`.
The loop is embedded with explicit fuel so that it is structurally
recursive; `hi - lo` shrinks at every iteration, so any fuel
`>= hi - lo` (the wrapper passes the list length) yields the loop's
exit value. -/
def bisectLeftLoop (a : List Nat) (x : Nat) : Nat → Nat → Nat → Nat
  | 0, lo, _ => lo
  | fuel + 1, lo, hi =>
    if lo < hi then
      let mid := (lo + hi) / 2
      if a.getD mid 0 < x then bisectLeftLoop a x fuel (mid + 1) hi
      else bisectLeftLoop a x fuel lo mid
    else lo

/-- The loop of CPython's `bisect.bisect_right`:
`while lo < hi: mid = (lo+hi)//2; if x < a[mid]: hi = mid else: lo = mid+1`,
with fuel as in `bisectLeftLoop`. -/
def bisectRightLoop (a : List Nat) (x : Nat) : Nat → Nat → Nat → Nat
  | 0, lo, _ => lo
  | fuel + 1, lo, hi =>
    if lo < hi then
      let mid := (lo + hi) / 2
      if x < a.getD mid 0 then bisectRightLoop a x fuel lo mid
      else bisectRightLoop a x fuel (mid + 1) hi
    else lo

/-- `bisect.bisect_left(a, x)`. -/
def bisect_left (a : List Nat) (x : Nat) : Nat :=
  bisectLeftLoop a x a.length 0 a.length

/-- `bisect.bisect_right(a, x)`. -/
def bisect_right (a : List Nat) (x : Nat) : Nat :=
  bisectRightLoop a x a.length 0 a.length

/-! ## The operations, translated from `BPlusTree.py` -/

/-- The key-list update of `BPTreeLeaf.insert` (lines 176-178):
`index = bisect_left(self._keys, key); if index == len(self._keys) or
self._keys[index] != key: self._keys.insert(index, key)`. -/
def leafInsertKeys (ks : List Nat) (key : Nat) : List Nat :=
  let index := bisect_left ks key
  if index = ks.length ∨ ks.getD index 0 ≠ key then pyInsert ks index key else ks

/-- `BPTreeLeaf.insert` (lines 169-190), acting on the leaf at arena index
`i`.  Returns the updated arena together with the promotion: `none` for
Python's `(None, None)`, or `some (pkey, j)` where `j` is the arena index
of the newly created leaf (`new_leaf._keys[0]` is the promoted key).
A new leaf is appended at the end of the arena. -/
def leafInsert (cap : Nat) (A : List LeafRec) (i : Nat) (key : Nat) :
    List LeafRec × Option (Nat × Nat) :=
  match A[i]? with
  | none => (A, none)
  | some lf =>
    let ks := leafInsertKeys lf.keys key
    let split_index := (cap + 1) / 2
    if cap < ks.length then
      (A.set i ⟨ks.take split_index, some A.length⟩ ++ [⟨ks.drop split_index, lf.next⟩],
       some ((ks.drop split_index).headD 0, A.length))
    else
      (A.set i ⟨ks, lf.next⟩, none)

/-- `BPTreeNode.insert_here` (lines 86-107): insert `key` at `position` in
the separator list and `pointer` at `position+1` in the children list; if
the node now exceeds capacity, split it.  Returns the node's new
`(keys, pointers)` pair together with the promotion. -/
def insert_here (cap : Nat) (ks : List Nat) (cs : List NodeT)
    (position : Nat) (key : Nat) (pointer : NodeT) :
    (List Nat × List NodeT) × Option (Nat × NodeT) :=
  let ks1 := pyInsert ks position key
  let cs1 := pyInsert cs (position + 1) pointer
  let split_index := (cap + 1) / 2
  if cap < ks1.length then
    let pkey := ks1.getD split_index 0
    let ks2 := pyRemove ks1 pkey
    ((ks2.take split_index, cs1.take (split_index + 1)),
     some (pkey, NodeT.node (ks2.drop split_index) (cs1.drop (split_index + 1))))
  else ((ks1, cs1), none)

mutual
/-- `BPTreeLeaf.insert` / `BPTreeNode.insert` (lines 109-122), dispatched on
the node kind as Python's duck typing does.  Returns the updated subtree,
the updated arena, and the promotion (`(pkey, ppointer)` or `(None, None)`). -/
def nodeInsert (cap : Nat) : NodeT → List LeafRec → Nat →
    NodeT × List LeafRec × Option (Nat × NodeT)
  | .leaf i, A, key =>
    let r := leafInsert cap A i key
    (.leaf i, r.1, r.2.map (fun pr => (pr.1, .leaf pr.2)))
  | .node ks cs, A, key =>
    let c := bisect_right ks key
    let r := insertChild cap cs c A key
    let cs' := cs.set c r.1
    match r.2.2 with
    | none => (.node ks cs', r.2.1, none)
    | some (pk, pn) =>
      let position := bisect_left ks pk
      let q := insert_here cap ks cs' position pk pn
      (.node q.1.1 q.1.2, r.2.1, q.2)

/-- The recursive call `self._pointers[c].insert(key)` of
`BPTreeNode.insert` (line 115): run `nodeInsert` on the `c`-th child.
An out-of-range index would raise `IndexError` in Python; it never occurs
in a well-formed tree and returns an inert dummy here. -/
def insertChild (cap : Nat) : List NodeT → Nat → List LeafRec → Nat →
    NodeT × List LeafRec × Option (Nat × NodeT)
  | [], _, A, _ => (.leaf 0, A, none)
  | c :: _, 0, A, key => nodeInsert cap c A key
  | _ :: cs, n + 1, A, key => insertChild cap cs n A key
end

mutual
/-- `BPTreeLeaf.find` (lines 165-167) / `BPTreeNode.find` (lines 82-84). -/
def nodeFind (A : List LeafRec) : NodeT → Nat → Bool
  | .leaf i, key =>
    match A[i]? with
    | none => false
    | some lf => lf.keys.contains key
  | .node ks cs, key => findChild A cs (bisect_right ks key) key

/-- The recursive call `self._pointers[c].find(key)` of `BPTreeNode.find`
(line 84).  Out-of-range indices never occur in a well-formed tree. -/
def findChild (A : List LeafRec) : List NodeT → Nat → Nat → Bool
  | [], _, _ => false
  | c :: _, 0, key => nodeFind A c key
  | _ :: cs, n + 1, key => findChild A cs n key
end

/-- The `while current._next is not None` loop of `BPTreeLeaf.keys`
(lines 153-162): collect the keys of the leaf at arena index `i` and of
every leaf after it on the `next` chain.  The loop is embedded with
explicit fuel; `fuel = A.length` suffices for every acyclic chain, and
the chain reachable in the program is always acyclic. -/
def chainKeys (A : List LeafRec) : Nat → Nat → List Nat
  | 0, _ => []
  | fuel + 1, i =>
    match A[i]? with
    | none => []
    | some lf =>
      match lf.next with
      | none => lf.keys
      | some j => lf.keys ++ chainKeys A fuel j

/-- `BPTreeLeaf.keys` / `BPTreeNode.keys` (lines 78-80): an internal node
delegates to its leftmost child (`self._pointers[0].keys()`), a leaf walks
the `next` chain.  An empty pointer list would raise `IndexError` in
Python and never occurs in a well-formed tree. -/
def nodeKeys (A : List LeafRec) : NodeT → List Nat
  | .leaf i => chainKeys A (A.length + 1) i
  | .node _ [] => []
  | .node _ (child :: _) => nodeKeys A child

mutual
/-- `num_nodes` (lines 124-127 and 192-193): `0` on a leaf,
`1 + sum(map(lambda n: n.num_nodes(), self._pointers))` on a node. -/
def num_nodesN : NodeT → Nat
  | .leaf _ => 0
  | .node _ cs => 1 + num_nodesSeq cs

/-- `sum(map(lambda n: n.num_nodes(), pointers))`. -/
def num_nodesSeq : List NodeT → Nat
  | [] => 0
  | c :: cs => num_nodesN c + num_nodesSeq cs
end

mutual
/-- `num_leaves` (lines 129-132 and 195-196). -/
def num_leavesN : NodeT → Nat
  | .leaf _ => 1
  | .node _ cs => num_leavesSeq cs

/-- `sum(map(lambda n: n.num_leaves(), pointers))`. -/
def num_leavesSeq : List NodeT → Nat
  | [] => 0
  | c :: cs => num_leavesN c + num_leavesSeq cs
end

mutual
/-- `num_keys` (lines 134-137 and 198-199): a leaf reports
`len(self._keys)`, a node sums over its children. -/
def num_keysN (A : List LeafRec) : NodeT → Nat
  | .leaf i =>
    match A[i]? with
    | none => 0
    | some lf => lf.keys.length
  | .node _ cs => num_keysSeq A cs

/-- `sum(map(lambda n: n.num_keys(), pointers))`. -/
def num_keysSeq (A : List LeafRec) : List NodeT → Nat
  | [] => 0
  | c :: cs => num_keysN A c + num_keysSeq A cs
end

/-- `height` (lines 139-141 and 201-202): `0` on a leaf,
`1 + self._pointers[0].height()` on a node (a node always has at least one
pointer in any state the program builds; an empty pointer list would raise
`IndexError` in Python and is given height `1` here). -/
def heightN : NodeT → Nat
  | .leaf _ => 0
  | .node _ [] => 1
  | .node _ (c :: _) => 1 + heightN c

/-- `BPTree.__init__` (lines 4-10): `self._tree = BPTreeLeaf([], None,
capacity)`.  No validation of `capacity` is performed. -/
def BPTree.new (capacity : Nat) : BPTree :=
  { capacity := capacity, arena := [⟨[], none⟩], root := .leaf 0 }

/-- `BPTree.insert` (lines 12-17). -/
def BPTree.insert (t : BPTree) (key : Nat) : BPTree :=
  let r := nodeInsert t.capacity t.root t.arena key
  match r.2.2 with
  | none => { t with root := r.1, arena := r.2.1 }
  | some (pkey, ppointer) =>
    { t with root := .node [pkey] [r.1, ppointer], arena := r.2.1 }

/-- `BPTree.find` (lines 23-25). -/
def BPTree.find (t : BPTree) (key : Nat) : Bool :=
  nodeFind t.arena t.root key

/-- `BPTree.keys` (lines 19-21). -/
def BPTree.keys (t : BPTree) : List Nat :=
  nodeKeys t.arena t.root

/-- `BPTree.num_nodes` (lines 27-28). -/
def BPTree.num_nodes (t : BPTree) : Nat := num_nodesN t.root

/-- `BPTree.num_leaves` (lines 30-31). -/
def BPTree.num_leaves (t : BPTree) : Nat := num_leavesN t.root

/-- `BPTree.num_keys` (lines 33-34). -/
def BPTree.num_keys (t : BPTree) : Nat := num_keysN t.arena t.root

/-- `BPTree.height` (lines 36-37): `self._tree.height() + 1`. -/
def BPTree.height (t : BPTree) : Nat := heightN t.root + 1

/-- `BPTree.stats` (lines 39-41):
`(self.height(), self.num_nodes(), self.num_leaves(), self.num_keys())`. -/
def BPTree.stats (t : BPTree) : Nat × Nat × Nat × Nat :=
  (t.height, t.num_nodes, t.num_leaves, t.num_keys)

/-- Inserting a list of keys in order. -/
def insertAll (t : BPTree) (l : List Nat) : BPTree :=
  l.foldl BPTree.insert t

/-- The tree states reachable through the public interface: a tree built
by `BPTree(capacity)` with `capacity >= 1` followed by any sequence of
`insert` calls. -/
def Reachable (t : BPTree) : Prop :=
  ∃ cap l, 1 ≤ cap ∧ t = insertAll (BPTree.new cap) l

/-! ## Library lemmas: `takeWhile`, the bisect loops, `pyInsert`, `pyRemove` -/

theorem takeWhile_length_le (p : α → Bool) (a : List α) :
    (a.takeWhile p).length ≤ a.length := by
  induction a with
  | nil => simp
  | cons b t ih =>
    rw [List.takeWhile_cons]
    by_cases h : p b = true
    · simp only [h, if_true, List.length_cons]; omega
    · simp only [h]; simp

theorem takeWhile_getElem (p : α → Bool) (a : List α) :
    ∀ j (h : j < a.length), j < (a.takeWhile p).length → p a[j] = true := by
  induction a with
  | nil => simp
  | cons b t ih =>
    intro j hj hlt
    rw [List.takeWhile_cons] at hlt
    by_cases hp : p b = true
    · simp only [hp, if_true, List.length_cons] at hlt
      match j with
      | 0 => simpa using hp
      | j' + 1 => simpa using ih j' (by simpa using hj) (by omega)
    · simp [hp] at hlt

theorem takeWhile_getElem_stop (p : α → Bool) (a : List α)
    (h : (a.takeWhile p).length < a.length) :
    ∃ y, a[(a.takeWhile p).length]? = some y ∧ p y = false := by
  induction a with
  | nil => simp at h
  | cons b t ih =>
    by_cases hp : p b = true
    · have hlen : ((b :: t).takeWhile p).length = (t.takeWhile p).length + 1 := by
        simp [List.takeWhile_cons, hp]
      rw [hlen, List.getElem?_cons_succ]
      exact ih (by rw [hlen] at h; simpa using h)
    · have hlen : ((b :: t).takeWhile p).length = 0 := by
        simp [List.takeWhile_cons, hp]
      rw [hlen]
      exact ⟨b, by simp, by simpa using hp⟩

theorem takeWhile_length_eq (p : α → Bool) (a : List α) (n : Nat)
    (hn : n ≤ a.length)
    (h : ∀ j (hj : j < a.length), j < n ↔ p a[j] = true) :
    (a.takeWhile p).length = n := by
  by_contra hne
  rcases Nat.lt_or_ge (a.takeWhile p).length n with hlt | hge
  · have h1 : (a.takeWhile p).length < a.length := Nat.lt_of_lt_of_le hlt hn
    obtain ⟨y, hy, hpy⟩ := takeWhile_getElem_stop p a h1
    have hp := (h _ h1).mp hlt
    rw [List.getElem?_eq_getElem h1] at hy
    have : y = a[(a.takeWhile p).length] := by
      injection hy.symm
    rw [this] at hpy
    rw [hp] at hpy
    exact Bool.true_eq_false.mp hpy
  · have hlt : n < (a.takeWhile p).length := by omega
    have h1 : n < a.length := Nat.lt_of_lt_of_le hlt (takeWhile_length_le p a)
    have := takeWhile_getElem p a n h1 hlt
    have := (h _ h1).mpr this
    omega

/-- The loop invariant of `bisect_left` at exit determines the result. -/
theorem takeWhile_lt_length_eq (a : List Nat) (x lo : Nat) (hlo : lo ≤ a.length)
    (hlow : ∀ j (hj : j < a.length), j < lo → a[j] < x)
    (hhigh : ∀ j (hj : j < a.length), lo ≤ j → ¬ a[j] < x) :
    (a.takeWhile (fun y => decide (y < x))).length = lo := by
  refine takeWhile_length_eq _ a lo hlo ?_
  intro j hj
  constructor
  · intro hjlo; simpa using hlow j hj hjlo
  · intro hp
    by_contra hge
    exact hhigh j hj (by omega) (by simpa using hp)

/-- The loop invariant of `bisect_right` at exit determines the result. -/
theorem takeWhile_le_length_eq (a : List Nat) (x lo : Nat) (hlo : lo ≤ a.length)
    (hlow : ∀ j (hj : j < a.length), j < lo → a[j] ≤ x)
    (hhigh : ∀ j (hj : j < a.length), lo ≤ j → ¬ a[j] ≤ x) :
    (a.takeWhile (fun y => decide (y ≤ x))).length = lo := by
  refine takeWhile_length_eq _ a lo hlo ?_
  intro j hj
  constructor
  · intro hjlo; simpa using hlow j hj hjlo
  · intro hp
    by_contra hge
    exact hhigh j hj (by omega) (by simpa using hp)

/-- The exit value of the `bisect_left` loop on a sorted segment. -/
theorem bisectLeftLoop_eq (a : List Nat) (x : Nat)
    (hs : a.Pairwise (· < ·)) :
    ∀ fuel lo hi, hi - lo ≤ fuel → lo ≤ hi → hi ≤ a.length →
    (∀ j (hj : j < a.length), j < lo → a[j] < x) →
    (∀ j (hj : j < a.length), hi ≤ j → ¬ a[j] < x) →
    bisectLeftLoop a x fuel lo hi = (a.takeWhile (fun y => decide (y < x))).length := by
  intro fuel
  induction fuel with
  | zero =>
    intro lo hi hfuel hle hhi hlow hhigh
    have : lo = hi := by omega
    subst this
    simp only [bisectLeftLoop]
    exact (takeWhile_lt_length_eq a x lo hhi hlow hhigh).symm
  | succ fuel ih =>
    intro lo hi hfuel hle hhi hlow hhigh
    simp only [bisectLeftLoop]
    by_cases hlt : lo < hi
    · simp only [hlt, if_true]
      have hmid1 : lo ≤ (lo + hi) / 2 := by omega
      have hmid2 : (lo + hi) / 2 < hi := by omega
      have hmlen : (lo + hi) / 2 < a.length := by omega
      have hget : a.getD ((lo + hi) / 2) 0 = a[(lo + hi) / 2] :=
        List.getD_eq_getElem a 0 hmlen
      by_cases hcmp : a.getD ((lo + hi) / 2) 0 < x
      · rw [hget] at hcmp
        simp only [hget, hcmp, if_true]
        refine ih ((lo + hi) / 2 + 1) hi (by omega) (by omega) hhi ?_ hhigh
        intro j hj hjlt
        rcases Nat.lt_or_ge j lo with hc | hc
        · exact hlow j hj hc
        · have hle2 : j ≤ (lo + hi) / 2 := by omega
          rcases Nat.eq_or_lt_of_le hle2 with he | hl
          · subst he; exact hcmp
          · have := List.pairwise_iff_getElem.mp hs j ((lo + hi) / 2) hj hmlen hl
            omega
      · rw [hget] at hcmp
        simp only [hget, hcmp, if_false]
        refine ih lo ((lo + hi) / 2) (by omega) (by omega) (by omega) hlow ?_
        intro j hj hjge
        rcases Nat.eq_or_lt_of_le hjge with he | hl
        · subst he; exact hcmp
        · have := List.pairwise_iff_getElem.mp hs ((lo + hi) / 2) j hmlen hj hl
          omega
    · simp only [hlt, if_false]
      have : lo = hi := by omega
      subst this
      exact (takeWhile_lt_length_eq a x lo hhi hlow hhigh).symm

/-- The exit value of the `bisect_right` loop on a sorted segment. -/
theorem bisectRightLoop_eq (a : List Nat) (x : Nat)
    (hs : a.Pairwise (· < ·)) :
    ∀ fuel lo hi, hi - lo ≤ fuel → lo ≤ hi → hi ≤ a.length →
    (∀ j (hj : j < a.length), j < lo → a[j] ≤ x) →
    (∀ j (hj : j < a.length), hi ≤ j → ¬ a[j] ≤ x) →
    bisectRightLoop a x fuel lo hi = (a.takeWhile (fun y => decide (y ≤ x))).length := by
  intro fuel
  induction fuel with
  | zero =>
    intro lo hi hfuel hle hhi hlow hhigh
    have : lo = hi := by omega
    subst this
    simp only [bisectRightLoop]
    exact (takeWhile_le_length_eq a x lo hhi hlow hhigh).symm
  | succ fuel ih =>
    intro lo hi hfuel hle hhi hlow hhigh
    simp only [bisectRightLoop]
    by_cases hlt : lo < hi
    · simp only [hlt, if_true]
      have hmid1 : lo ≤ (lo + hi) / 2 := by omega
      have hmid2 : (lo + hi) / 2 < hi := by omega
      have hmlen : (lo + hi) / 2 < a.length := by omega
      have hget : a.getD ((lo + hi) / 2) 0 = a[(lo + hi) / 2] :=
        List.getD_eq_getElem a 0 hmlen
      by_cases hcmp : x < a.getD ((lo + hi) / 2) 0
      · rw [hget] at hcmp
        simp only [hget, hcmp, if_true]
        refine ih lo ((lo + hi) / 2) (by omega) (by omega) (by omega) hlow ?_
        intro j hj hjge
        rcases Nat.eq_or_lt_of_le hjge with he | hl
        · subst he; exact Nat.not_le.mpr hcmp
        · have := List.pairwise_iff_getElem.mp hs ((lo + hi) / 2) j hmlen hj hl
          omega
      · rw [hget] at hcmp
        simp only [hget, hcmp, if_false]
        refine ih ((lo + hi) / 2 + 1) hi (by omega) (by omega) hhi ?_ hhigh
        intro j hj hjlt
        rcases Nat.lt_or_ge j lo with hc | hc
        · exact hlow j hj hc
        · have hle2 : j ≤ (lo + hi) / 2 := by omega
          rcases Nat.eq_or_lt_of_le hle2 with he | hl
          · subst he; exact Nat.le_of_not_lt hcmp
          · have := List.pairwise_iff_getElem.mp hs j ((lo + hi) / 2) hj hmlen hl
            omega
    · simp only [hlt, if_false]
      have : lo = hi := by omega
      subst this
      exact (takeWhile_le_length_eq a x lo hhi hlow hhigh).symm

/-- On a sorted list, `bisect_left a x` is the length of the prefix of
elements `< x`. -/
theorem bisect_left_eq_takeWhile (a : List Nat) (x : Nat)
    (hs : a.Pairwise (· < ·)) :
    bisect_left a x = (a.takeWhile (fun y => decide (y < x))).length := by
  refine bisectLeftLoop_eq a x hs a.length 0 a.length (by omega) (by omega) le_rfl ?_ ?_
  · intro j hj h; omega
  · intro j hj h; omega

/-- On a sorted list, `bisect_right a x` is the length of the prefix of
elements `≤ x`. -/
theorem bisect_right_eq_takeWhile (a : List Nat) (x : Nat)
    (hs : a.Pairwise (· < ·)) :
    bisect_right a x = (a.takeWhile (fun y => decide (y ≤ x))).length := by
  refine bisectRightLoop_eq a x hs a.length 0 a.length (by omega) (by omega) le_rfl ?_ ?_
  · intro j hj h; omega
  · intro j hj h; omega

theorem bisect_left_le_length (a : List Nat) (x : Nat)
    (hs : a.Pairwise (· < ·)) : bisect_left a x ≤ a.length := by
  rw [bisect_left_eq_takeWhile a x hs]; exact takeWhile_length_le _ a

theorem bisect_right_le_length (a : List Nat) (x : Nat)
    (hs : a.Pairwise (· < ·)) : bisect_right a x ≤ a.length := by
  rw [bisect_right_eq_takeWhile a x hs]; exact takeWhile_length_le _ a

theorem bisect_left_lt (a : List Nat) (x : Nat) (hs : a.Pairwise (· < ·))
    {j k : Nat} (hjk : a[j]? = some k) (h : j < bisect_left a x) : k < x := by
  obtain ⟨hj, he⟩ := List.getElem?_eq_some_iff.mp hjk
  subst he
  rw [bisect_left_eq_takeWhile a x hs] at h
  simpa using takeWhile_getElem _ a j hj h

theorem bisect_left_ge (a : List Nat) (x : Nat) (hs : a.Pairwise (· < ·))
    {j k : Nat} (hjk : a[j]? = some k) (h : bisect_left a x ≤ j) : x ≤ k := by
  obtain ⟨hj, he⟩ := List.getElem?_eq_some_iff.mp hjk
  subst he
  have hb := bisect_left_eq_takeWhile a x hs
  obtain ⟨y, hy, hpy⟩ :=
    takeWhile_getElem_stop (fun y => decide (y < x)) a (by rw [← hb]; omega)
  rw [← hb] at hy
  have hxy : x ≤ y := by simpa using hpy
  rcases Nat.eq_or_lt_of_le h with he2 | hl
  · rw [he2, List.getElem?_eq_getElem hj] at hy
    have : y = a[j] := by injection hy.symm
    omega
  · obtain ⟨hL2, hey⟩ := List.getElem?_eq_some_iff.mp hy
    have := List.pairwise_iff_getElem.mp hs (bisect_left a x) j hL2 hj hl
    omega

theorem bisect_right_le (a : List Nat) (x : Nat) (hs : a.Pairwise (· < ·))
    {j k : Nat} (hjk : a[j]? = some k) (h : j < bisect_right a x) : k ≤ x := by
  obtain ⟨hj, he⟩ := List.getElem?_eq_some_iff.mp hjk
  subst he
  rw [bisect_right_eq_takeWhile a x hs] at h
  simpa using takeWhile_getElem _ a j hj h

theorem bisect_right_gt (a : List Nat) (x : Nat) (hs : a.Pairwise (· < ·))
    {j k : Nat} (hjk : a[j]? = some k) (h : bisect_right a x ≤ j) : x < k := by
  obtain ⟨hj, he⟩ := List.getElem?_eq_some_iff.mp hjk
  subst he
  have hb := bisect_right_eq_takeWhile a x hs
  obtain ⟨y, hy, hpy⟩ :=
    takeWhile_getElem_stop (fun y => decide (y ≤ x)) a (by rw [← hb]; omega)
  rw [← hb] at hy
  have hxy : x < y := by simpa using hpy
  rcases Nat.eq_or_lt_of_le h with he2 | hl
  · rw [he2, List.getElem?_eq_getElem hj] at hy
    have : y = a[j] := by injection hy.symm
    omega
  · obtain ⟨hL2, hey⟩ := List.getElem?_eq_some_iff.mp hy
    have := List.pairwise_iff_getElem.mp hs (bisect_right a x) j hL2 hj hl
    omega


/-- The insertion point for `x` in a sorted list is the unique position
with all smaller elements to its left and all `≥`-elements to its right. -/
theorem bisect_left_eq_of (a : List Nat) (x : Nat) (hs : a.Pairwise (· < ·))
    (n : Nat) (hn : n ≤ a.length)
    (hlow : ∀ j (hj : j < a.length), j < n → a[j] < x)
    (hhigh : ∀ j (hj : j < a.length), n ≤ j → x ≤ a[j]) :
    bisect_left a x = n := by
  rw [bisect_left_eq_takeWhile a x hs]
  refine takeWhile_length_eq _ a n hn ?_
  intro j hj
  constructor
  · intro h; simpa using hlow j hj h
  · intro h
    simp only [decide_eq_true_eq] at h
    by_contra hge
    have := hhigh j hj (by omega)
    omega

/-! ## Lemmas about `pyInsert`, `pyRemove`, `List.set` -/

theorem pyInsert_length (l : List α) (i : Nat) (x : α) :
    (pyInsert l i x).length = l.length + 1 := by
  simp only [pyInsert, List.length_append, List.length_take, List.length_cons,
    List.length_drop]
  omega

theorem mem_pyInsert (l : List α) (i : Nat) (x y : α) :
    y ∈ pyInsert l i x ↔ y = x ∨ y ∈ l := by
  have h0 : l.take i ++ l.drop i = l := List.take_append_drop i l
  unfold pyInsert
  constructor
  · intro h
    rcases List.mem_append.mp h with h1 | h2
    · right; rw [← h0]; exact List.mem_append.mpr (Or.inl h1)
    · rcases List.mem_cons.mp h2 with h3 | h4
      · exact Or.inl h3
      · right; rw [← h0]; exact List.mem_append.mpr (Or.inr h4)
  · intro h
    rcases h with h | h
    · exact List.mem_append.mpr (Or.inr (List.mem_cons.mpr (Or.inl h)))
    · rw [← h0] at h
      rcases List.mem_append.mp h with h1 | h2
      · exact List.mem_append.mpr (Or.inl h1)
      · exact List.mem_append.mpr (Or.inr (List.mem_cons.mpr (Or.inr h2)))

theorem pyInsert_getElem?_lt (l : List α) (i : Nat) (x : α) (j : Nat)
    (h : j < i) (hi : i ≤ l.length) : (pyInsert l i x)[j]? = l[j]? := by
  have hlen : (l.take i).length = i := by simp; omega
  unfold pyInsert
  rw [List.getElem?_append, hlen]
  simp [h, List.getElem?_take]

theorem pyInsert_getElem?_self (l : List α) (i : Nat) (x : α) (hi : i ≤ l.length) :
    (pyInsert l i x)[i]? = some x := by
  have hlen : (l.take i).length = i := by simp; omega
  unfold pyInsert
  rw [List.getElem?_append_right (by omega), hlen]
  simp

theorem pyInsert_getElem?_gt (l : List α) (i : Nat) (x : α) (j : Nat)
    (h : i < j) (hi : i ≤ l.length) : (pyInsert l i x)[j]? = l[j - 1]? := by
  have hlen : (l.take i).length = i := by simp; omega
  unfold pyInsert
  rw [List.getElem?_append_right (by omega), hlen]
  have h2 : j - i = (j - i - 1) + 1 := by omega
  rw [h2, List.getElem?_cons_succ, List.getElem?_drop]
  congr 1
  omega

theorem set_self_of_getElem? (l : List α) (i : Nat) (a : α) (h : l[i]? = some a) :
    l.set i a = l := by
  apply List.ext_getElem?
  intro n
  rw [List.getElem?_set]
  by_cases he : i = n
  · subst he
    obtain ⟨hlt, hv⟩ := List.getElem?_eq_some_iff.mp h
    simp [hlt, List.getElem?_eq_getElem hlt, hv]
  · simp [he]

theorem set_eq_take_cons_drop (l : List α) (i : Nat) (a : α) (h : i < l.length) :
    l.set i a = l.take i ++ a :: l.drop (i + 1) := by
  induction l generalizing i with
  | nil => simp at h
  | cons b t ih =>
    cases i with
    | zero => simp [List.set]
    | succ m =>
      have : m < t.length := by simpa using h
      simp [List.set, ih m this]

theorem pyRemove_eq_of (l : List Nat) (x : Nat) :
    ∀ s, l[s]? = some x → (∀ j y, l[j]? = some y → j < s → y ≠ x) →
    pyRemove l x = l.take s ++ l.drop (s + 1) := by
  induction l with
  | nil => intro s hs _; simp at hs
  | cons a t ih =>
    intro s hs hne
    cases s with
    | zero =>
      have : a = x := by simpa using hs
      simp [pyRemove, this]
    | succ m =>
      have ha : a ≠ x := hne 0 a (by simp) (by omega)
      rw [List.getElem?_cons_succ] at hs
      simp only [pyRemove, if_neg ha]
      rw [ih m hs ?_]
      · simp
      · intro j y hy hj
        exact hne (j + 1) y (by rw [List.getElem?_cons_succ]; exact hy) (by omega)

theorem pairwise_lt_pyInsert (l : List Nat) (i x : Nat) (hi : i ≤ l.length)
    (hs : l.Pairwise (· < ·))
    (hlow : ∀ j y, l[j]? = some y → j < i → y < x)
    (hhigh : ∀ j y, l[j]? = some y → i ≤ j → x < y) :
    (pyInsert l i x).Pairwise (· < ·) := by
  have hmem_take : ∀ y ∈ l.take i, ∃ m, m < i ∧ l[m]? = some y := by
    intro y hy
    obtain ⟨m, hm⟩ := List.mem_iff_getElem?.mp hy
    rw [List.getElem?_take] at hm
    by_cases hmi : m < i
    · exact ⟨m, hmi, by simpa [hmi] using hm⟩
    · simp [hmi] at hm
  have hmem_drop : ∀ y ∈ l.drop i, ∃ m, i ≤ m ∧ l[m]? = some y := by
    intro y hy
    obtain ⟨m, hm⟩ := List.mem_iff_getElem?.mp hy
    rw [List.getElem?_drop] at hm
    exact ⟨i + m, by omega, hm⟩
  unfold pyInsert
  rw [List.pairwise_append]
  refine ⟨List.Pairwise.sublist (List.take_sublist i l) hs, ?_, ?_⟩
  · rw [List.pairwise_cons]
    refine ⟨?_, List.Pairwise.sublist (List.drop_sublist i l) hs⟩
    intro y hy
    obtain ⟨m, hmi, hm⟩ := hmem_drop y hy
    exact hhigh m y hm hmi
  · intro a ha b hb
    obtain ⟨m, hmi, hm⟩ := hmem_take a ha
    have hax : a < x := hlow m a hm hmi
    rcases List.mem_cons.mp hb with hbx | hbd
    · omega
    · obtain ⟨m', hmi', hm'⟩ := hmem_drop b hbd
      have : x < b := hhigh m' b hm' hmi'
      omega

/-! ## Derived views of the tree: leaf indices, leaf key sets, links -/

/-- The key list of the leaf at arena index `i`. -/
def leafKeys (A : List LeafRec) (i : Nat) : List Nat :=
  match A[i]? with
  | some lf => lf.keys
  | none => []

/-- The `next` field of the leaf at arena index `i`. -/
def nxt (A : List LeafRec) (i : Nat) : Option Nat :=
  match A[i]? with
  | some lf => lf.next
  | none => none

mutual
/-- The arena indices of the leaves of a subtree, left to right. -/
def leafIdxs : NodeT → List Nat
  | .leaf i => [i]
  | .node _ cs => leafIdxsSeq cs

/-- `leafIdxs` over a child list. -/
def leafIdxsSeq : List NodeT → List Nat
  | [] => []
  | c :: cs => leafIdxs c ++ leafIdxsSeq cs
end

mutual
/-- All keys stored in the leaves of a subtree, left to right. -/
def subKeys (A : List LeafRec) : NodeT → List Nat
  | .leaf i => leafKeys A i
  | .node _ cs => subKeysSeq A cs

/-- `subKeys` over a child list. -/
def subKeysSeq (A : List LeafRec) : List NodeT → List Nat
  | [] => []
  | c :: cs => subKeys A c ++ subKeysSeq A cs
end

theorem leafIdxsSeq_append (a b : List NodeT) :
    leafIdxsSeq (a ++ b) = leafIdxsSeq a ++ leafIdxsSeq b := by
  induction a with
  | nil => simp [leafIdxsSeq]
  | cons c cs ih => simp [leafIdxsSeq, ih]

theorem subKeysSeq_append (A : List LeafRec) (a b : List NodeT) :
    subKeysSeq A (a ++ b) = subKeysSeq A a ++ subKeysSeq A b := by
  induction a with
  | nil => simp [subKeysSeq]
  | cons c cs ih => simp [subKeysSeq, ih]

theorem mem_leafIdxsSeq (cs : List NodeT) (i : Nat) :
    i ∈ leafIdxsSeq cs ↔ ∃ (j : Nat) (c : NodeT), cs[j]? = some c ∧ i ∈ leafIdxs c := by
  induction cs with
  | nil => simp [leafIdxsSeq]
  | cons c cs ih =>
    simp only [leafIdxsSeq, List.mem_append, ih]
    constructor
    · rintro (h | ⟨j, c', hj, hc⟩)
      · exact ⟨0, c, by simp, h⟩
      · exact ⟨j + 1, c', by simpa using hj, hc⟩
    · rintro ⟨j, c', hj, hc⟩
      cases j with
      | zero =>
        have : c = c' := by simpa using hj
        subst this
        exact Or.inl hc
      | succ m => exact Or.inr ⟨m, c', by simpa using hj, hc⟩

theorem mem_subKeysSeq (A : List LeafRec) (cs : List NodeT) (x : Nat) :
    x ∈ subKeysSeq A cs ↔ ∃ (j : Nat) (c : NodeT), cs[j]? = some c ∧ x ∈ subKeys A c := by
  induction cs with
  | nil => simp [subKeysSeq]
  | cons c cs ih =>
    simp only [subKeysSeq, List.mem_append, ih]
    constructor
    · rintro (h | ⟨j, c', hj, hc⟩)
      · exact ⟨0, c, by simp, h⟩
      · exact ⟨j + 1, c', by simpa using hj, hc⟩
    · rintro ⟨j, c', hj, hc⟩
      cases j with
      | zero =>
        have : c = c' := by simpa using hj
        subst this
        exact Or.inl hc
      | succ m => exact Or.inr ⟨m, c', by simpa using hj, hc⟩

mutual
theorem subKeys_congr (A A' : List LeafRec) (n : NodeT)
    (h : ∀ i ∈ leafIdxs n, A'[i]? = A[i]?) : subKeys A' n = subKeys A n := by
  cases n with
  | leaf i =>
    have := h i (by simp [leafIdxs])
    simp only [subKeys, leafKeys, this]
  | node ks cs => exact subKeysSeq_congr A A' cs (by simpa [leafIdxs] using h)

theorem subKeysSeq_congr (A A' : List LeafRec) (cs : List NodeT)
    (h : ∀ i ∈ leafIdxsSeq cs, A'[i]? = A[i]?) :
    subKeysSeq A' cs = subKeysSeq A cs := by
  cases cs with
  | nil => rfl
  | cons c cs =>
    simp only [subKeysSeq]
    rw [subKeys_congr A A' c (fun i hi => h i (by simp [leafIdxsSeq, hi])),
      subKeysSeq_congr A A' cs (fun i hi => h i (by simp [leafIdxsSeq, hi]))]
end

/-! ## The well-formedness invariant -/

/-- `lo` is a (weak) lower bound for `k`; `none` means unbounded. -/
def oLe : Option Nat → Nat → Prop
  | none, _ => True
  | some l, k => l ≤ k

/-- `lo` is a strict lower bound for `k`; `none` means unbounded. -/
def oLt : Option Nat → Nat → Prop
  | none, _ => True
  | some l, k => l < k

/-- `k` is below the upper bound `hi`; `none` means unbounded. -/
def kLt : Nat → Option Nat → Prop
  | _, none => True
  | k, some h => k < h

/-- `k` lies in the half-open interval `[lo, hi)`. -/
def inB (lo hi : Option Nat) (k : Nat) : Prop := oLe lo k ∧ kLt k hi

/-- The lower bound of the `j`-th child of a node with separators `ks`
over the interval `[lo, hi)`. -/
def lowB (lo : Option Nat) (ks : List Nat) (j : Nat) : Option Nat :=
  if j = 0 then lo else ks[j - 1]?

/-- The upper bound of the `j`-th child. -/
def upB (ks : List Nat) (hi : Option Nat) (j : Nat) : Option Nat :=
  if j = ks.length then hi else ks[j]?

/-- Well-formedness of a subtree over the arena `A`: `Good cap A n d lo hi`
says that `n` is a valid B+ subtree of uniform height `d` whose leaf keys
and separators all lie in the half-open interval `[lo, hi)`, every node
obeys the capacity bound, every internal node has one more child than
separators, separators are strictly sorted, and the `j`-th child lies
between the adjacent separators. -/
inductive Good (cap : Nat) (A : List LeafRec) : NodeT → Nat → Option Nat → Option Nat → Prop
  | leaf : ∀ i lo hi lf, A[i]? = some lf →
      lf.keys.Pairwise (· < ·) →
      (∀ k ∈ lf.keys, inB lo hi k) →
      lf.keys.length ≤ cap →
      Good cap A (.leaf i) 0 lo hi
  | node : ∀ ks cs d lo hi,
      cs.length = ks.length + 1 →
      ks.length ≤ cap →
      ks.Pairwise (· < ·) →
      (∀ k ∈ ks, inB lo hi k) →
      (∀ (j : Nat) (c : NodeT), cs[j]? = some c → Good cap A c d (lowB lo ks j) (upB ks hi j)) →
      Good cap A (.node ks cs) (d + 1) lo hi

theorem Good_congr {cap : Nat} {A : List LeafRec} {n : NodeT} {d : Nat}
    {lo hi : Option Nat} (h : Good cap A n d lo hi) :
    ∀ A', (∀ i ∈ leafIdxs n, A'[i]? = A[i]?) → Good cap A' n d lo hi := by
  induction h with
  | leaf i lo hi lf hA hp hb hl =>
    intro A' hagree
    exact Good.leaf i lo hi lf
      (by rw [hagree i (by simp [leafIdxs])]; exact hA) hp hb hl
  | node ks cs d lo hi hlen hcap hp hb hch ih =>
    intro A' hagree
    refine Good.node ks cs d lo hi hlen hcap hp hb ?_
    intro j c hjc
    refine ih j c hjc A' ?_
    intro i hi2
    exact hagree i (by
      show i ∈ leafIdxs (.node ks cs)
      simp only [leafIdxs]
      exact (mem_leafIdxsSeq cs i).mpr ⟨j, c, hjc, hi2⟩)

/-- Every leaf index of a well-formed subtree is a valid arena index. -/
theorem Good_leafIdxs_lt {cap : Nat} {A : List LeafRec} {n : NodeT} {d : Nat}
    {lo hi : Option Nat} (h : Good cap A n d lo hi) :
    ∀ i ∈ leafIdxs n, i < A.length := by
  induction h with
  | leaf i lo hi lf hA _ _ _ =>
    intro i' hi'
    have : i' = i := by simpa [leafIdxs] using hi'
    subst this
    exact (List.getElem?_eq_some_iff.mp hA).1
  | node ks cs d lo hi _ _ _ _ _ ih =>
    intro i hi2
    simp only [leafIdxs] at hi2
    obtain ⟨j, c, hjc, hc⟩ := (mem_leafIdxsSeq cs i).mp hi2
    exact ih j c hjc i hc

/-- A well-formed subtree has at least one leaf. -/
theorem Good_leafIdxs_ne_nil {cap : Nat} {A : List LeafRec} {n : NodeT} {d : Nat}
    {lo hi : Option Nat} (h : Good cap A n d lo hi) : leafIdxs n ≠ [] := by
  induction h with
  | leaf i lo hi lf hA _ _ _ => simp [leafIdxs]
  | node ks cs d lo hi hlen _ _ _ _ ih =>
    simp only [leafIdxs]
    cases hcs : cs with
    | nil => rw [hcs] at hlen; simp at hlen
    | cons c cs' =>
      have h0 : cs[0]? = some c := by rw [hcs]; simp
      have := ih 0 c h0
      subst hcs
      simp only [leafIdxsSeq]
      intro hab
      exact this (by
        rcases List.append_eq_nil.mp hab with ⟨h1, _⟩
        exact h1)

/-- The `next`-chain condition: consecutive arena indices in the list are
linked by `next`, and the last one ends the chain with `None`. -/
def ChainOK (A : List LeafRec) : List Nat → Prop
  | [] => True
  | [i] => nxt A i = none
  | i :: j :: rest => nxt A i = some j ∧ ChainOK A (j :: rest)

/-- The global invariant of a reachable tree state. -/
structure TreeInv (t : BPTree) : Prop where
  cap_pos : 1 ≤ t.capacity
  good : ∃ d, Good t.capacity t.arena t.root d none none
  nodup : (leafIdxs t.root).Nodup
  chain : ChainOK t.arena (leafIdxs t.root)

/-! ## Bounds and sortedness of the leaf keys of a well-formed subtree -/

theorem oLe_of_le {lo : Option Nat} {a b : Nat} (h : oLe lo a) (hab : a ≤ b) :
    oLe lo b := by
  cases lo with
  | none => trivial
  | some l => simp only [oLe] at *; omega

theorem kLt_of_ge {hi : Option Nat} {a b : Nat} (h : kLt a hi) (hab : b ≤ a) :
    kLt b hi := by
  cases hi with
  | none => trivial
  | some l => simp only [kLt] at *; omega

/-- A key of the `j`-th child lies in the node's own interval. -/
theorem inB_of_child {lo hi : Option Nat} {ks : List Nat} {j x : Nat}
    (hj : j ≤ ks.length)
    (hbk : ∀ k ∈ ks, inB lo hi k)
    (hx : inB (lowB lo ks j) (upB ks hi j) x) : inB lo hi x := by
  obtain ⟨hx1, hx2⟩ := hx
  constructor
  · by_cases hj0 : j = 0
    · simpa [lowB, hj0] using hx1
    · have hlt : j - 1 < ks.length := by omega
      rw [lowB, if_neg hj0, List.getElem?_eq_getElem hlt] at hx1
      simp only [oLe] at hx1
      have hmem := List.getElem_mem hlt
      have := (hbk _ hmem).1
      exact oLe_of_le this hx1
  · by_cases hjl : j = ks.length
    · simpa [upB, hjl] using hx2
    · have hlt : j < ks.length := by omega
      rw [upB, if_neg hjl, List.getElem?_eq_getElem hlt] at hx2
      simp only [kLt] at hx2
      have hmem := List.getElem_mem hlt
      have := (hbk _ hmem).2
      exact kLt_of_ge this (by omega)

theorem subKeysSeq_eq_flatten (A : List LeafRec) (cs : List NodeT) :
    subKeysSeq A cs = (cs.map (subKeys A)).flatten := by
  induction cs with
  | nil => simp [subKeysSeq]
  | cons c cs ih => simp [subKeysSeq, ih]

/-- All leaf keys of a well-formed subtree lie in its interval, and they
are strictly sorted in left-to-right order. -/
theorem Good_subKeys_facts {cap : Nat} {A : List LeafRec} {n : NodeT} {d : Nat}
    {lo hi : Option Nat} (h : Good cap A n d lo hi) :
    (∀ x ∈ subKeys A n, inB lo hi x) ∧ (subKeys A n).Pairwise (· < ·) := by
  induction h with
  | leaf i lo hi lf hA hp hb hl =>
    constructor
    · intro x hx
      exact hb x (by simpa [subKeys, leafKeys, hA] using hx)
    · simpa [subKeys, leafKeys, hA] using hp
  | node ks cs d lo hi hlen hcap hp hb hch ih =>
    have hjle : ∀ (j : Nat) (c : NodeT), cs[j]? = some c → j ≤ ks.length := by
      intro j c hjc
      have := (List.getElem?_eq_some_iff.mp hjc).1
      omega
    constructor
    · intro x hx
      simp only [subKeys] at hx
      obtain ⟨j, c, hjc, hc⟩ := (mem_subKeysSeq A cs x).mp hx
      exact inB_of_child (hjle j c hjc) hb ((ih j c hjc).1 x hc)
    · show (subKeysSeq A cs).Pairwise (· < ·)
      rw [subKeysSeq_eq_flatten]
      rw [List.pairwise_flatten]
      constructor
      · intro l hl
        obtain ⟨c, hc, hlc⟩ := List.mem_map.mp hl
        obtain ⟨j, hj⟩ := List.mem_iff_getElem?.mp hc
        subst hlc
        exact (ih j c hj).2
      · rw [List.pairwise_map]
        rw [List.pairwise_iff_getElem]
        intro j j' hj hj' hjj' x hx y hy
        have hcj := List.getElem?_eq_getElem hj
        have hcj' := List.getElem?_eq_getElem hj'
        have hx2 := (ih j cs[j] hcj).1 x hx
        have hy2 := (ih j' cs[j'] hcj').1 y hy
        -- x < ks[j] and ks[j'-1] ≤ y, with ks[j] ≤ ks[j'-1]
        have hjk : j < ks.length := by omega
        have hup : upB ks hi j = some ks[j] := by
          rw [upB, if_neg (by omega), List.getElem?_eq_getElem hjk]
        have hxlt : x < ks[j] := by
          have := hx2.2
          rw [hup] at this
          exact this
        have hj'1 : j' - 1 < ks.length := by omega
        have hlow : lowB lo ks j' = some ks[j' - 1] := by
          rw [lowB, if_neg (by omega), List.getElem?_eq_getElem hj'1]
        have hyge : ks[j' - 1] ≤ y := by
          have := hy2.1
          rw [hlow] at this
          exact this
        rcases Nat.eq_or_lt_of_le (show j ≤ j' - 1 by omega) with he | hl2
        · -- ks[j] = ks[j'-1]
          have : ks[j] = ks[j' - 1] := by congr 1
          omega
        · have := List.pairwise_iff_getElem.mp hp j (j' - 1) hjk hj'1 hl2
          omega

/-! ## Routing: `bisect_right` picks the child whose interval covers the key -/

theorem route_inB {lo hi : Option Nat} {ks : List Nat} (hp : ks.Pairwise (· < ·))
    {key : Nat} (hkey : inB lo hi key) :
    inB (lowB lo ks (bisect_right ks key)) (upB ks hi (bisect_right ks key)) key := by
  constructor
  · by_cases h0 : bisect_right ks key = 0
    · rw [lowB, if_pos h0]; exact hkey.1
    · have hc1 : bisect_right ks key - 1 < ks.length := by
        have := bisect_right_le_length ks key hp; omega
      rw [lowB, if_neg h0, List.getElem?_eq_getElem hc1]
      show oLe (some ks[bisect_right ks key - 1]) key
      exact bisect_right_le ks key hp (List.getElem?_eq_getElem hc1) (by omega)
  · by_cases hl : bisect_right ks key = ks.length
    · rw [upB, if_pos hl]; exact hkey.2
    · have hc : bisect_right ks key < ks.length := by
        have := bisect_right_le_length ks key hp; omega
      rw [upB, if_neg hl, List.getElem?_eq_getElem hc]
      show key < ks[bisect_right ks key]
      exact bisect_right_gt ks key hp (List.getElem?_eq_getElem hc) le_rfl

/-- A key present in an internal node's subtree lies in the child that
`bisect_right` routes to. -/
theorem mem_routed {cap : Nat} {A : List LeafRec} {ks : List Nat} {cs : List NodeT}
    {d : Nat} {lo hi : Option Nat} (hlen : cs.length = ks.length + 1)
    (hp : ks.Pairwise (· < ·))
    (hch : ∀ (j : Nat) (c : NodeT), cs[j]? = some c →
      Good cap A c d (lowB lo ks j) (upB ks hi j))
    {key : Nat} {child : NodeT} (hc : cs[bisect_right ks key]? = some child)
    (hx : key ∈ subKeysSeq A cs) : key ∈ subKeys A child := by
  obtain ⟨j, c, hjc, hkc⟩ := (mem_subKeysSeq A cs key).mp hx
  rcases Nat.lt_trichotomy j (bisect_right ks key) with hlt | heq | hgt
  · exfalso
    have hb := (Good_subKeys_facts (hch j c hjc)).1 key hkc
    have hjk : j < ks.length := by
      have := bisect_right_le_length ks key hp
      omega
    have hub : upB ks hi j = some ks[j] := by
      rw [upB, if_neg (by omega), List.getElem?_eq_getElem hjk]
    have h1 : key < ks[j] := by
      have := hb.2; rw [hub] at this; exact this
    have h2 : ks[j] ≤ key :=
      bisect_right_le ks key hp (List.getElem?_eq_getElem hjk) hlt
    omega
  · subst heq
    rw [hjc] at hc
    have : c = child := by injection hc
    subst this
    exact hkc
  · exfalso
    have hb := (Good_subKeys_facts (hch j c hjc)).1 key hkc
    have hj1 : j - 1 < ks.length := by
      have := (List.getElem?_eq_some_iff.mp hjc).1
      omega
    have hlb : lowB lo ks j = some ks[j - 1] := by
      rw [lowB, if_neg (by omega), List.getElem?_eq_getElem hj1]
    have h1 : ks[j - 1] ≤ key := by
      have := hb.1; rw [hlb] at this; exact this
    have h2 : key < ks[j - 1] :=
      bisect_right_gt ks key hp (List.getElem?_eq_getElem hj1) (by omega)
    omega

theorem findChild_eq (A : List LeafRec) (cs : List NodeT) (c : Nat) (key : Nat)
    (child : NodeT) (h : cs[c]? = some child) :
    findChild A cs c key = nodeFind A child key := by
  induction cs generalizing c with
  | nil => simp at h
  | cons c0 cs ih =>
    cases c with
    | zero =>
      have : c0 = child := by simpa using h
      subst this
      rfl
    | succ m => exact ih m (by simpa using h)

theorem insertChild_eq (cap : Nat) (cs : List NodeT) (c : Nat)
    (A : List LeafRec) (key : Nat) (child : NodeT) (h : cs[c]? = some child) :
    insertChild cap cs c A key = nodeInsert cap child A key := by
  induction cs generalizing c with
  | nil => simp at h
  | cons c0 cs ih =>
    cases c with
    | zero =>
      have : c0 = child := by simpa using h
      subst this
      rfl
    | succ m => exact ih m (by simpa using h)

/-- `find` returns `true` exactly on the keys present at the leaf level. -/
theorem nodeFind_correct {cap : Nat} {A : List LeafRec} {n : NodeT} {d : Nat}
    {lo hi : Option Nat} (h : Good cap A n d lo hi) :
    ∀ key, inB lo hi key → (nodeFind A n key = true ↔ key ∈ subKeys A n) := by
  induction h with
  | leaf i lo hi lf hA hp hb hl =>
    intro key hkey
    simp [nodeFind, hA, subKeys, leafKeys]
  | node ks cs d lo hi hlen hcap hp hb hch ih =>
    intro key hkey
    have hclt : bisect_right ks key < cs.length := by
      have := bisect_right_le_length ks key hp
      omega
    have hchild : cs[bisect_right ks key]? = some cs[bisect_right ks key] :=
      List.getElem?_eq_getElem hclt
    have hstep : nodeFind A (.node ks cs) key
        = findChild A cs (bisect_right ks key) key := by
      simp [nodeFind]
    rw [hstep, findChild_eq A cs _ key _ hchild]
    rw [ih _ _ hchild key (route_inB hp hkey)]
    constructor
    · intro hmem
      show key ∈ subKeysSeq A cs
      exact (mem_subKeysSeq A cs key).mpr ⟨_, _, hchild, hmem⟩
    · intro hmem
      exact mem_routed hlen hp hch hchild (by simpa [subKeys] using hmem)

/-! ## The `next` chain and `keys()` -/

mutual
theorem subKeys_eq_idx (A : List LeafRec) (n : NodeT) :
    subKeys A n = ((leafIdxs n).map (leafKeys A)).flatten := by
  cases n with
  | leaf i => simp [subKeys, leafIdxs]
  | node ks cs =>
    show subKeysSeq A cs = _
    simp only [leafIdxs]
    exact subKeysSeq_eq_idx A cs

theorem subKeysSeq_eq_idx (A : List LeafRec) (cs : List NodeT) :
    subKeysSeq A cs = ((leafIdxsSeq cs).map (leafKeys A)).flatten := by
  cases cs with
  | nil => rfl
  | cons c rest =>
    simp only [subKeysSeq, leafIdxsSeq, List.map_append, List.flatten_append]
    rw [subKeys_eq_idx A c, subKeysSeq_eq_idx A rest]
end

/-- Walking the `next` chain from the head of a linked list of leaves
collects exactly the concatenation of their key lists. -/
theorem chainKeys_chain (A : List LeafRec) :
    ∀ (L : List Nat) (i fuel : Nat), ChainOK A (i :: L) →
    (∀ j ∈ i :: L, j < A.length) → (i :: L).length ≤ fuel →
    chainKeys A fuel i = ((i :: L).map (leafKeys A)).flatten := by
  intro L
  induction L with
  | nil =>
    intro i fuel hchain hbound hfuel
    have hi : i < A.length := hbound i (by simp)
    obtain ⟨lf, hlf⟩ : ∃ lf, A[i]? = some lf := by
      rcases h : A[i]? with _ | lf
      · rw [List.getElem?_eq_none_iff] at h; omega
      · exact ⟨lf, rfl⟩
    have hnext : lf.next = none := by
      have := hchain
      simp only [ChainOK, nxt, hlf] at this
      exact this
    cases fuel with
    | zero => simp at hfuel
    | succ f => simp [chainKeys, hlf, hnext, leafKeys]
  | cons j L ih =>
    intro i fuel hchain hbound hfuel
    have hi : i < A.length := hbound i (by simp)
    obtain ⟨lf, hlf⟩ : ∃ lf, A[i]? = some lf := by
      rcases h : A[i]? with _ | lf
      · rw [List.getElem?_eq_none_iff] at h; omega
      · exact ⟨lf, rfl⟩
    obtain ⟨hn, hrest⟩ : nxt A i = some j ∧ ChainOK A (j :: L) := hchain
    have hnext : lf.next = some j := by
      simp only [nxt, hlf] at hn
      exact hn
    cases fuel with
    | zero => simp at hfuel
    | succ f =>
      have : chainKeys A f j = ((j :: L).map (leafKeys A)).flatten :=
        ih j f hrest (fun x hx => hbound x (by simp [hx])) (by simpa using hfuel)
      simp [chainKeys, hlf, hnext, leafKeys, this]

/-- A duplicate-free list of numbers `< n` has at most `n` elements. -/
theorem nodup_length_le (L : List Nat) (n : Nat) (hnd : L.Nodup)
    (hb : ∀ x ∈ L, x < n) : L.length ≤ n := by
  classical
  have h1 : L.toFinset.card = L.length := List.toFinset_card_of_nodup hnd
  have h2 : L.toFinset ⊆ Finset.range n := by
    intro x hx
    rw [Finset.mem_range]
    exact hb x (List.mem_toFinset.mp hx)
  have := Finset.card_le_card h2
  rw [h1, Finset.card_range] at this
  exact this

/-- `nodeKeys` starts its chain walk at the leftmost leaf of the subtree. -/
theorem nodeKeys_head {cap : Nat} {A : List LeafRec} {n : NodeT} {d : Nat}
    {lo hi : Option Nat} (h : Good cap A n d lo hi) :
    ∃ i L, leafIdxs n = i :: L ∧ nodeKeys A n = chainKeys A (A.length + 1) i := by
  induction h with
  | leaf i lo hi lf hA hp hb hl => exact ⟨i, [], rfl, rfl⟩
  | node ks cs d lo hi hlen hcap hp hb hch ih =>
    cases cs with
    | nil => simp at hlen
    | cons c0 rest =>
      obtain ⟨i, L, hL, hkeys⟩ := ih 0 c0 (by simp)
      refine ⟨i, L ++ leafIdxsSeq rest, ?_, ?_⟩
      · simp [leafIdxs, leafIdxsSeq, hL]
      · simp [nodeKeys, hkeys]

/-- The `height` method computes the uniform height of a well-formed
subtree. -/
theorem Good_height {cap : Nat} {A : List LeafRec} {n : NodeT} {d : Nat}
    {lo hi : Option Nat} (h : Good cap A n d lo hi) : heightN n = d := by
  induction h with
  | leaf i lo hi lf hA hp hb hl => rfl
  | node ks cs d lo hi hlen hcap hp hb hch ih =>
    cases cs with
    | nil => simp at hlen
    | cons c0 rest =>
      have h0 := ih 0 c0 (by simp)
      simp only [heightN, h0]
      omega

/-- Under the tree invariant, `keys()` lists exactly the leaf keys in
tree order. -/
theorem keys_eq_subKeys {t : BPTree} (ti : TreeInv t) :
    t.keys = subKeys t.arena t.root := by
  obtain ⟨d, hg⟩ := ti.good
  obtain ⟨i, L, hL, hkeys⟩ := nodeKeys_head hg
  have hbound : ∀ j ∈ i :: L, j < t.arena.length := by
    intro j hj
    exact Good_leafIdxs_lt hg j (by rw [hL]; exact hj)
  have hnd : (i :: L).Nodup := by
    have := ti.nodup
    rw [hL] at this
    exact this
  have hchain : ChainOK t.arena (i :: L) := by
    have := ti.chain
    rw [hL] at this
    exact this
  have hfuel : (i :: L).length ≤ t.arena.length + 1 := by
    have := nodup_length_le (i :: L) t.arena.length hnd hbound
    omega
  show nodeKeys t.arena t.root = _
  rw [hkeys, chainKeys_chain t.arena L i (t.arena.length + 1) hchain hbound hfuel,
    subKeys_eq_idx t.arena t.root, hL]

/-! ## Specification of `insert`: helper lemmas -/

theorem mem_take_getElem? (l : List α) (s : Nat) (x : α) (h : x ∈ l.take s) :
    ∃ m, m < s ∧ l[m]? = some x := by
  obtain ⟨m, hm⟩ := List.mem_iff_getElem?.mp h
  rw [List.getElem?_take] at hm
  by_cases hms : m < s
  · exact ⟨m, hms, by simpa [hms] using hm⟩
  · simp [hms] at hm

theorem mem_drop_getElem? (l : List α) (s : Nat) (x : α) (h : x ∈ l.drop s) :
    ∃ m, s ≤ m ∧ l[m]? = some x := by
  obtain ⟨m, hm⟩ := List.mem_iff_getElem?.mp h
  rw [List.getElem?_drop] at hm
  exact ⟨s + m, by omega, hm⟩

theorem pairwise_lt_getElem? {l : List Nat} (hp : l.Pairwise (· < ·))
    {m m' : Nat} {x y : Nat} (hx : l[m]? = some x) (hy : l[m']? = some y)
    (h : m < m') : x < y := by
  obtain ⟨hm, hex⟩ := List.getElem?_eq_some_iff.mp hx
  obtain ⟨hm', hey⟩ := List.getElem?_eq_some_iff.mp hy
  subst hex
  subst hey
  exact List.pairwise_iff_getElem.mp hp m m' hm hm' h

/-- Membership in a sorted list is equivalent to `bisect_left` landing on
the element. -/
theorem mem_iff_bisect_left (ks : List Nat) (key : Nat)
    (hp : ks.Pairwise (· < ·)) :
    key ∈ ks ↔ ks[bisect_left ks key]? = some key := by
  constructor
  · intro h
    obtain ⟨m, hm⟩ := List.mem_iff_getElem?.mp h
    have hmlt := (List.getElem?_eq_some_iff.mp hm).1
    rcases Nat.lt_or_ge m (bisect_left ks key) with hc | hc
    · exact absurd (bisect_left_lt ks key hp hm hc) (by omega)
    · have htlt : bisect_left ks key < ks.length := by omega
      have hts : ks[bisect_left ks key]? = some ks[bisect_left ks key] :=
        List.getElem?_eq_getElem htlt
      have hge := bisect_left_ge ks key hp hts le_rfl
      rcases Nat.eq_or_lt_of_le hc with he | hl
      · rw [he]
        exact hm
      · have := pairwise_lt_getElem? hp hts hm hl
        omega
  · intro h
    exact List.mem_iff_getElem?.mpr ⟨_, h⟩

/-- A duplicate insert leaves the leaf's key list unchanged
(`BPTreeLeaf.insert`, line 177 guard). -/
theorem leafInsertKeys_mem (ks : List Nat) (key : Nat)
    (hp : ks.Pairwise (· < ·)) (h : key ∈ ks) :
    leafInsertKeys ks key = ks := by
  have hb := (mem_iff_bisect_left ks key hp).mp h
  obtain ⟨hlt, he⟩ := List.getElem?_eq_some_iff.mp hb
  unfold leafInsertKeys
  rw [if_neg]
  push_neg
  constructor
  · omega
  · rw [List.getD_eq_getElem ks 0 hlt]
    exact he

/-- A new key is inserted at its `bisect_left` position. -/
theorem leafInsertKeys_not_mem (ks : List Nat) (key : Nat)
    (hp : ks.Pairwise (· < ·)) (h : key ∉ ks) :
    leafInsertKeys ks key = pyInsert ks (bisect_left ks key) key := by
  unfold leafInsertKeys
  rw [if_pos]
  by_cases hl : bisect_left ks key = ks.length
  · exact Or.inl hl
  · right
    have hlt : bisect_left ks key < ks.length := by
      have := bisect_left_le_length ks key hp
      omega
    rw [List.getD_eq_getElem ks 0 hlt]
    intro he
    exact h (List.mem_iff_getElem?.mpr ⟨_, by rw [List.getElem?_eq_getElem hlt, he]⟩)

/-- The leaf lists of the updated subtree together with any promoted
sibling, left to right. -/
def outIdxs (n' : NodeT) (p : Option (Nat × NodeT)) : List Nat :=
  leafIdxs n' ++ (match p with | none => [] | some pr => leafIdxs pr.2)

/-- The leaf keys of the updated subtree together with any promoted
sibling. -/
def outKeys (A : List LeafRec) (n' : NodeT) (p : Option (Nat × NodeT)) : List Nat :=
  subKeys A n' ++ (match p with | none => [] | some pr => subKeys A pr.2)

/-- The full contract of `nodeInsert` on a well-formed subtree:
the arena only grows; untouched leaves keep their slots; the leaf keys
afterwards are exactly the old ones plus `key`; the results are again
well formed (with a strictly in-range promoted key after a split); the
leaf sequence is either unchanged or has the fresh leaf spliced right
after the leaf that split, with the `next` links rearranged accordingly;
and inserting a present key changes nothing. -/
structure InsOut (cap : Nat) (A : List LeafRec) (key : Nat) (d : Nat)
    (lo hi : Option Nat) (n : NodeT)
    (res : NodeT × List LeafRec × Option (Nat × NodeT)) : Prop where
  alen : A.length ≤ res.2.1.length
  frame : ∀ j, j < A.length → j ∉ leafIdxs n → res.2.1[j]? = A[j]?
  mem : ∀ x, x ∈ outKeys res.2.1 res.1 res.2.2 ↔ x ∈ subKeys A n ∨ x = key
  good : match res.2.2 with
    | none => Good cap res.2.1 res.1 d lo hi
    | some (pk, pn) =>
        Good cap res.2.1 res.1 d lo (some pk) ∧ Good cap res.2.1 pn d (some pk) hi
        ∧ oLt lo pk ∧ kLt pk hi
  splice :
    (outIdxs res.1 res.2.2 = leafIdxs n ∧ res.2.1.length = A.length
       ∧ (∀ m, nxt res.2.1 m = nxt A m))
    ∨ (∃ xs i ys, leafIdxs n = xs ++ i :: ys
       ∧ outIdxs res.1 res.2.2 = xs ++ i :: A.length :: ys
       ∧ res.2.1.length = A.length + 1
       ∧ nxt res.2.1 i = some A.length
       ∧ nxt res.2.1 A.length = nxt A i
       ∧ (∀ m, m ≠ i → m ≠ A.length → nxt res.2.1 m = nxt A m))
  noop : key ∈ subKeys A n → res = (n, A, none)

/-- `nodeInsert` meets its contract on a leaf. -/
theorem leafInsert_out (cap : Nat) (hcap : 1 ≤ cap) (A : List LeafRec) (key : Nat)
    {i : Nat} {lo hi : Option Nat} (hg : Good cap A (.leaf i) 0 lo hi)
    (hkey : inB lo hi key) :
    InsOut cap A key 0 lo hi (.leaf i) (nodeInsert cap (.leaf i) A key) := by
  obtain ⟨lf, hA, hp, hb, hl⟩ : ∃ lf, A[i]? = some lf
      ∧ lf.keys.Pairwise (· < ·) ∧ (∀ k ∈ lf.keys, inB lo hi k)
      ∧ lf.keys.length ≤ cap := by
    cases hg with
    | leaf i lo hi lf hA hp hb hl => exact ⟨lf, hA, hp, hb, hl⟩
  have hiA : i < A.length := (List.getElem?_eq_some_iff.mp hA).1
  have hsub : subKeys A (.leaf i) = lf.keys := by simp [subKeys, leafKeys, hA]
  by_cases hmem : key ∈ lf.keys
  · -- duplicate key: the tree is unchanged
    have hks : leafInsertKeys lf.keys key = lf.keys := leafInsertKeys_mem _ _ hp hmem
    have hset : A.set i ⟨lf.keys, lf.next⟩ = A := set_self_of_getElem? A i lf hA
    have hres : nodeInsert cap (.leaf i) A key = (.leaf i, A, none) := by
      simp only [nodeInsert, leafInsert, hA, hks]
      rw [if_neg (by omega)]
      simp [hset]
    rw [hres]
    refine ⟨le_rfl, fun j _ _ => rfl, ?_, hg, Or.inl ⟨by simp [outIdxs], rfl, fun m => rfl⟩,
      fun _ => rfl⟩
    intro x
    simp only [outKeys, hsub]
    constructor
    · intro hx
      exact Or.inl (by simpa [subKeys, leafKeys, hA] using hx)
    · rintro (hx | rfl)
      · simpa [subKeys, leafKeys, hA] using hx
      · simpa [subKeys, leafKeys, hA] using hmem
  · -- a genuinely new key
    have hks : leafInsertKeys lf.keys key
        = pyInsert lf.keys (bisect_left lf.keys key) key :=
      leafInsertKeys_not_mem _ _ hp hmem
    have htle : bisect_left lf.keys key ≤ lf.keys.length := bisect_left_le_length _ _ hp
    have hlen2 : (pyInsert lf.keys (bisect_left lf.keys key) key).length
        = lf.keys.length + 1 := pyInsert_length _ _ _
    have hps : (pyInsert lf.keys (bisect_left lf.keys key) key).Pairwise (· < ·) := by
      refine pairwise_lt_pyInsert lf.keys _ key htle hp ?_ ?_
      · intro j y hjy hj
        exact bisect_left_lt lf.keys key hp hjy hj
      · intro j y hjy hj
        have h1 := bisect_left_ge lf.keys key hp hjy hj
        have h2 : y ≠ key := by
          intro he
          exact hmem (by rw [← he]; exact List.mem_iff_getElem?.mpr ⟨_, hjy⟩)
        omega
    have hmemks : ∀ x, x ∈ pyInsert lf.keys (bisect_left lf.keys key) key
        ↔ x = key ∨ x ∈ lf.keys := fun x => mem_pyInsert _ _ _ _
    have hbks : ∀ x ∈ pyInsert lf.keys (bisect_left lf.keys key) key, inB lo hi x := by
      intro x hx
      rcases (hmemks x).mp hx with rfl | hx2
      · exact hkey
      · exact hb x hx2
    set ks2 := pyInsert lf.keys (bisect_left lf.keys key) key with hks2
    by_cases hsplit : cap < ks2.length
    · -- overflow: the leaf splits
      have hkslen : ks2.length = cap + 1 := by omega
      have hs1 : 1 ≤ (cap + 1) / 2 := by omega
      have hscap : (cap + 1) / 2 ≤ cap := by omega
      have hslt : (cap + 1) / 2 < ks2.length := by omega
      have hdrop : ks2.drop ((cap + 1) / 2)
          = ks2[(cap + 1) / 2] :: ks2.drop ((cap + 1) / 2 + 1) :=
        List.drop_eq_getElem_cons hslt
      have hpk : (ks2.drop ((cap + 1) / 2)).headD 0 = ks2[(cap + 1) / 2] := by
        rw [hdrop]; rfl
      have hres : nodeInsert cap (.leaf i) A key
          = (.leaf i,
             A.set i ⟨ks2.take ((cap + 1) / 2), some A.length⟩
               ++ [⟨ks2.drop ((cap + 1) / 2), lf.next⟩],
             some (ks2[(cap + 1) / 2], .leaf A.length)) := by
        simp only [nodeInsert, leafInsert, hA, hks, ← hks2]
        rw [if_pos hsplit]
        simp [hpk, List.getElem?_eq_getElem hslt]
      rw [hres]
      have hsetlen : (A.set i ⟨ks2.take ((cap + 1) / 2), some A.length⟩).length
          = A.length := List.length_set A i _
      have hA'i : (A.set i ⟨ks2.take ((cap + 1) / 2), some A.length⟩
            ++ [⟨ks2.drop ((cap + 1) / 2), lf.next⟩])[i]?
          = some ⟨ks2.take ((cap + 1) / 2), some A.length⟩ := by
        rw [List.getElem?_append, if_pos (by omega)]
        rw [List.getElem?_set, if_pos rfl, if_pos hiA]
      have hA'new : (A.set i ⟨ks2.take ((cap + 1) / 2), some A.length⟩
            ++ [⟨ks2.drop ((cap + 1) / 2), lf.next⟩])[A.length]?
          = some ⟨ks2.drop ((cap + 1) / 2), lf.next⟩ := by
        have h9 := List.getElem?_concat_length
          (A.set i ⟨ks2.take ((cap + 1) / 2), some A.length⟩)
          (⟨ks2.drop ((cap + 1) / 2), lf.next⟩ : LeafRec)
        rw [hsetlen] at h9
        exact h9
      have hA'other : ∀ j, j ≠ i → j ≠ A.length →
          (A.set i ⟨ks2.take ((cap + 1) / 2), some A.length⟩
            ++ [⟨ks2.drop ((cap + 1) / 2), lf.next⟩])[j]? = A[j]? := by
        intro j hji hjl
        rcases Nat.lt_or_ge j A.length with hc | hc
        · rw [List.getElem?_append, if_pos (by omega), List.getElem?_set, if_neg (by omega)]
        · have h1 : (A.set i ⟨ks2.take ((cap + 1) / 2), some A.length⟩
              ++ [(⟨ks2.drop ((cap + 1) / 2), lf.next⟩ : LeafRec)]).length
              = A.length + 1 := by simp
          rw [List.getElem?_eq_none_iff.mpr (by omega), List.getElem?_eq_none_iff.mpr (by omega)]
      constructor
      · simp
      · intro j hj hjni
        exact hA'other j (by simpa [leafIdxs] using hjni) (by omega)
      · intro x
        have houtk : outKeys (A.set i ⟨ks2.take ((cap + 1) / 2), some A.length⟩
              ++ [⟨ks2.drop ((cap + 1) / 2), lf.next⟩])
            (.leaf i) (some (ks2[(cap + 1) / 2], .leaf A.length)) = ks2 := by
          simp only [outKeys, subKeys, leafKeys, hA'i, hA'new]
          exact List.take_append_drop _ _
        rw [houtk, hsub]
        rw [hmemks x]
        tauto
      · show Good _ _ (.leaf i) 0 lo (some _) ∧ Good _ _ (.leaf A.length) 0 (some _) hi
          ∧ oLt lo _ ∧ kLt _ hi
        have hself : ks2[(cap + 1) / 2]? = some ks2[(cap + 1) / 2] :=
          List.getElem?_eq_getElem hslt
        refine ⟨?_, ?_, ?_, ?_⟩
        · refine Good.leaf i lo _ _ hA'i
            (List.Pairwise.sublist (List.take_sublist _ _) hps) ?_ ?_
          · intro k hk
            obtain ⟨m, hms, hmk⟩ := mem_take_getElem? _ _ _ hk
            refine ⟨(hbks k (List.mem_iff_getElem?.mpr ⟨_, hmk⟩)).1, ?_⟩
            show k < _
            exact pairwise_lt_getElem? hps hmk hself hms
          · show (ks2.take ((cap + 1) / 2)).length ≤ cap
            rw [List.length_take]
            omega
        · refine Good.leaf A.length _ hi _ hA'new
            (List.Pairwise.sublist (List.drop_sublist _ _) hps) ?_ ?_
          · intro k hk
            obtain ⟨m, hms, hmk⟩ := mem_drop_getElem? _ _ _ hk
            constructor
            · show _ ≤ k
              rcases Nat.eq_or_lt_of_le hms with he | hlm
              · rw [← he] at hmk
                rw [hself] at hmk
                injection hmk with hmk
                omega
              · have := pairwise_lt_getElem? hps hself hmk hlm
                omega
            · exact (hbks k (List.mem_iff_getElem?.mpr ⟨_, hmk⟩)).2
          · show (ks2.drop ((cap + 1) / 2)).length ≤ cap
            rw [List.length_drop]
            omega
        · cases lo with
          | none => trivial
          | some l =>
            have h0 : ks2[0]? = some ks2[0] := List.getElem?_eq_getElem (by omega)
            have h01 := pairwise_lt_getElem? hps h0 hself (by omega)
            have h02 := (hbks _ (List.mem_iff_getElem?.mpr ⟨_, h0⟩)).1
            show l < _
            simp only [oLe] at h02
            omega
        · exact (hbks _ (List.mem_iff_getElem?.mpr ⟨_, hself⟩)).2
      · refine Or.inr ⟨[], i, [], by simp [leafIdxs],
          by simp [outIdxs, leafIdxs], by simp, ?_, ?_, ?_⟩
        · show nxt _ i = some A.length
          simp only [nxt, hA'i]
        · show nxt _ A.length = nxt A i
          simp only [nxt, hA'new, hA]
        · intro m hmi hml
          show nxt _ m = nxt A m
          simp only [nxt, hA'other m hmi hml]
      · intro hx
        rw [hsub] at hx
        exact absurd hx hmem
    · -- no overflow: update the leaf in place
      have hres : nodeInsert cap (.leaf i) A key
          = (.leaf i, A.set i ⟨ks2, lf.next⟩, none) := by
        simp only [nodeInsert, leafInsert, hA, hks, ← hks2]
        rw [if_neg hsplit]
        rfl
      rw [hres]
      have hA'i : (A.set i ⟨ks2, lf.next⟩)[i]? = some ⟨ks2, lf.next⟩ := by
        rw [List.getElem?_set, if_pos rfl, if_pos hiA]
      have hA'ne : ∀ j, j ≠ i → (A.set i ⟨ks2, lf.next⟩)[j]? = A[j]? := by
        intro j hj
        rw [List.getElem?_set, if_neg (by omega)]
      constructor
      · simp
      · intro j hj hjni
        exact hA'ne j (by simpa [leafIdxs] using hjni)
      · intro x
        have houtk : outKeys (A.set i ⟨ks2, lf.next⟩) (.leaf i) none = ks2 := by
          simp [outKeys, subKeys, leafKeys, hA'i]
        rw [houtk, hsub, hmemks x]
        tauto
      · show Good _ _ (.leaf i) 0 lo hi
        refine Good.leaf i lo hi _ hA'i hps hbks ?_
        show ks2.length ≤ cap
        omega
      · refine Or.inl ⟨by simp [outIdxs], by simp, ?_⟩
        intro m
        by_cases hm : m = i
        · subst hm
          simp only [nxt, hA'i, hA]
        · simp only [nxt, hA'ne m hm]
      · intro hx
        rw [hsub] at hx
        exact absurd hx hmem

/-! ## Node-level helper lemmas for the insert specification -/

/-- In a duplicate-free leaf-index sequence, distinct children have
disjoint leaf sets. -/
theorem nodup_children_disjoint (cs : List NodeT)
    (hnd : (leafIdxsSeq cs).Nodup) :
    ∀ (j j' : Nat) (cj cj' : NodeT), j ≠ j' → cs[j]? = some cj →
    cs[j']? = some cj' → ∀ x ∈ leafIdxs cj, x ∉ leafIdxs cj' := by
  induction cs with
  | nil => intro j j' cj cj' _ h; simp at h
  | cons c0 rest ih =>
    have hnd1 : (leafIdxsSeq rest).Nodup :=
      (List.nodup_append.mp (by simpa [leafIdxsSeq] using hnd)).2.1
    have hdis : ∀ x ∈ leafIdxs c0, x ∉ leafIdxsSeq rest := by
      have := (List.nodup_append.mp (by simpa [leafIdxsSeq] using hnd)).2.2
      intro x hx
      exact this hx
    intro j j' cj cj' hne hj hj'
    cases j with
    | zero =>
      have hcj : c0 = cj := by simpa using hj
      subst hcj
      cases j' with
      | zero => omega
      | succ m' =>
        have hj'2 : rest[m']? = some cj' := by simpa using hj'
        intro x hx hx'
        exact hdis x hx ((mem_leafIdxsSeq rest x).mpr ⟨m', cj', hj'2, hx'⟩)
    | succ m =>
      have hj2 : rest[m]? = some cj := by simpa using hj
      cases j' with
      | zero =>
        have hcj' : c0 = cj' := by simpa using hj'
        subst hcj'
        intro x hx hx'
        exact hdis x hx' ((mem_leafIdxsSeq rest x).mpr ⟨m, cj, hj2, hx⟩)
      | succ m' =>
        have hj'2 : rest[m']? = some cj' := by simpa using hj'
        exact ih hnd1 m m' cj cj' (by omega) hj2 hj'2

theorem pyInsert_append_cons (P : List α) (x : α) (R : List α) (y : α) :
    pyInsert (P ++ x :: R) (P.length + 1) y = P ++ x :: y :: R := by
  unfold pyInsert
  rw [List.take_append_eq_append_take, List.drop_append_eq_append_drop]
  rw [List.take_of_length_le (by omega), List.drop_eq_nil_of_le (by omega)]
  have h1 : P.length + 1 - P.length = 1 := by omega
  rw [h1]
  simp

/-- Decomposing a list around a valid index. -/
theorem take_cons_drop_eq (l : List α) (c : Nat) (h : c < l.length) :
    l.take c ++ l[c] :: l.drop (c + 1) = l := by
  rw [← List.drop_eq_getElem_cons h]
  exact List.take_append_drop c l

/-- The children of the node assembled by `insert_here` before any split:
old children keep their intervals, the updated child and the promoted
sibling sit on either side of the new separator. -/
theorem assembled_children {cap : Nat} {A' : List LeafRec} {ks : List Nat}
    {cs' : List NodeT} {c : Nat} {pk : Nat} {pn left : NodeT} {d : Nat}
    {lo hi : Option Nat}
    (hlen : cs'.length = ks.length + 1) (hc : c ≤ ks.length)
    (hch : ∀ (j : Nat) (cj : NodeT), cs'[j]? = some cj → j ≠ c →
      Good cap A' cj d (lowB lo ks j) (upB ks hi j))
    (hcc : cs'[c]? = some left)
    (hgl : Good cap A' left d (lowB lo ks c) (some pk))
    (hgr : Good cap A' pn d (some pk) (upB ks hi c)) :
    ∀ (j : Nat) (cj : NodeT), (pyInsert cs' (c + 1) pn)[j]? = some cj →
      Good cap A' cj d (lowB lo (pyInsert ks c pk) j) (upB (pyInsert ks c pk) hi j) := by
  intro j cj hj
  have hlen1 : (pyInsert ks c pk).length = ks.length + 1 := pyInsert_length _ _ _
  have hlen2 : (pyInsert cs' (c + 1) pn).length = cs'.length + 1 := pyInsert_length _ _ _
  have hjlt : j < cs'.length + 1 := by
    have := (List.getElem?_eq_some_iff.mp hj).1
    omega
  rcases Nat.lt_trichotomy j c with hjc | hjc | hjc
  · -- an untouched child left of the split position
    have hje : (pyInsert cs' (c + 1) pn)[j]? = cs'[j]? :=
      pyInsert_getElem?_lt cs' (c + 1) pn j (by omega) (by omega)
    rw [hje] at hj
    have hg := hch j cj hj (by omega)
    have hlb : lowB lo (pyInsert ks c pk) j = lowB lo ks j := by
      unfold lowB
      by_cases hj0 : j = 0
      · simp [hj0]
      · rw [if_neg hj0, if_neg hj0]
        exact pyInsert_getElem?_lt ks c pk (j - 1) (by omega) (by omega)
    have hub : upB (pyInsert ks c pk) hi j = upB ks hi j := by
      unfold upB
      rw [if_neg (by omega), if_neg (by omega)]
      exact pyInsert_getElem?_lt ks c pk j (by omega) (by omega)
    rw [hlb, hub]
    exact hg
  · -- the updated child, now bounded above by the promoted key
    subst hjc
    have hje : (pyInsert cs' (j + 1) pn)[j]? = cs'[j]? :=
      pyInsert_getElem?_lt cs' (j + 1) pn j (by omega) (by omega)
    rw [hje, hcc] at hj
    have : left = cj := by injection hj
    subst this
    have hlb : lowB lo (pyInsert ks j pk) j = lowB lo ks j := by
      unfold lowB
      by_cases hj0 : j = 0
      · simp [hj0]
      · rw [if_neg hj0, if_neg hj0]
        exact pyInsert_getElem?_lt ks j pk (j - 1) (by omega) (by omega)
    have hub : upB (pyInsert ks j pk) hi j = some pk := by
      unfold upB
      rw [if_neg (by omega)]
      exact pyInsert_getElem?_self ks j pk (by omega)
    rw [hlb, hub]
    exact hgl
  · rcases Nat.eq_or_lt_of_le (show c + 1 ≤ j by omega) with hje1 | hje1
    · -- the promoted sibling
      have hje : (pyInsert cs' (c + 1) pn)[j]? = some pn := by
        rw [← hje1]
        exact pyInsert_getElem?_self cs' (c + 1) pn (by omega)
      rw [hje] at hj
      have : pn = cj := by injection hj
      subst this
      have hlb : lowB lo (pyInsert ks c pk) j = some pk := by
        unfold lowB
        rw [if_neg (by omega)]
        have : j - 1 = c := by omega
        rw [this]
        exact pyInsert_getElem?_self ks c pk (by omega)
      have hub : upB (pyInsert ks c pk) hi j = upB ks hi c := by
        unfold upB
        by_cases hjl : j = (pyInsert ks c pk).length
        · rw [if_pos hjl, if_pos (by omega)]
        · rw [if_neg hjl, if_neg (by omega)]
          have h2 := pyInsert_getElem?_gt ks c pk j (by omega) (by omega)
          rw [h2]
          congr 1
          omega
      rw [hlb, hub]
      exact hgr

    · -- an untouched child right of the split position
      have hje : (pyInsert cs' (c + 1) pn)[j]? = cs'[j - 1]? :=
        pyInsert_getElem?_gt cs' (c + 1) pn j (by omega) (by omega)
      rw [hje] at hj
      have hg := hch (j - 1) cj hj (by omega)
      have hlb : lowB lo (pyInsert ks c pk) j = lowB lo ks (j - 1) := by
        unfold lowB
        rw [if_neg (by omega), if_neg (by omega)]
        have h2 := pyInsert_getElem?_gt ks c pk (j - 1) (by omega) (by omega)
        rw [h2]
      have hub : upB (pyInsert ks c pk) hi j = upB ks hi (j - 1) := by
        unfold upB
        by_cases hjl : j = (pyInsert ks c pk).length
        · rw [if_pos hjl, if_pos (by omega)]
        · rw [if_neg hjl, if_neg (by omega)]
          exact pyInsert_getElem?_gt ks c pk j (by omega) (by omega)
      rw [hlb, hub]
      exact hg

/-- The left half of a split keeps its children's intervals, now capped
by the promoted key. -/
theorem split_children_left {cap : Nat} {A : List LeafRec} {ks1 : List Nat}
    {cs1 : List NodeT} {d s pkey : Nat} {lo hi : Option Nat}
    (hlen : cs1.length = ks1.length + 1) (hs : s < ks1.length)
    (hpkey : ks1[s]? = some pkey)
    (hch : ∀ (j : Nat) (cj : NodeT), cs1[j]? = some cj →
      Good cap A cj d (lowB lo ks1 j) (upB ks1 hi j)) :
    ∀ (j : Nat) (cj : NodeT), (cs1.take (s + 1))[j]? = some cj →
      Good cap A cj d (lowB lo (ks1.take s) j) (upB (ks1.take s) (some pkey) j) := by
  intro j cj hj
  rw [List.getElem?_take] at hj
  by_cases hjs : j < s + 1
  · rw [if_pos hjs] at hj
    have hg := hch j cj hj
    have htlen : (ks1.take s).length = s := by
      rw [List.length_take]; omega
    have hlb : lowB lo (ks1.take s) j = lowB lo ks1 j := by
      unfold lowB
      by_cases hj0 : j = 0
      · simp [hj0]
      · rw [if_neg hj0, if_neg hj0, List.getElem?_take, if_pos (by omega)]
    have hub : upB (ks1.take s) (some pkey) j = upB ks1 hi j := by
      unfold upB
      by_cases hjs2 : j = s
      · rw [if_pos (by omega), if_neg (by omega), hjs2, hpkey]
      · rw [if_neg (by omega), if_neg (by omega), List.getElem?_take, if_pos (by omega)]
    rw [hlb, hub]
    exact hg
  · rw [if_neg hjs] at hj
    exact absurd hj (by simp)

/-- The right half of a split keeps its children's intervals, now based
at the promoted key. -/
theorem split_children_right {cap : Nat} {A : List LeafRec} {ks1 : List Nat}
    {cs1 : List NodeT} {d s pkey : Nat} {lo hi : Option Nat}
    (hlen : cs1.length = ks1.length + 1) (hs : s < ks1.length)
    (hpkey : ks1[s]? = some pkey)
    (hch : ∀ (j : Nat) (cj : NodeT), cs1[j]? = some cj →
      Good cap A cj d (lowB lo ks1 j) (upB ks1 hi j)) :
    ∀ (j : Nat) (cj : NodeT), (cs1.drop (s + 1))[j]? = some cj →
      Good cap A cj d (lowB (some pkey) (ks1.drop (s + 1)) j)
        (upB (ks1.drop (s + 1)) hi j) := by
  intro j cj hj
  rw [List.getElem?_drop] at hj
  have hjlt : s + 1 + j < cs1.length := (List.getElem?_eq_some_iff.mp hj).1
  have hg := hch (s + 1 + j) cj hj
  have hdlen : (ks1.drop (s + 1)).length = ks1.length - (s + 1) := List.length_drop _ _
  have hlb : lowB (some pkey) (ks1.drop (s + 1)) j = lowB lo ks1 (s + 1 + j) := by
    unfold lowB
    by_cases hj0 : j = 0
    · rw [if_pos hj0, if_neg (by omega), hj0]
      have : s + 1 + 0 - 1 = s := by omega
      rw [this, hpkey]
    · rw [if_neg hj0, if_neg (by omega), List.getElem?_drop]
      congr 1
      omega
  have hub : upB (ks1.drop (s + 1)) hi j = upB ks1 hi (s + 1 + j) := by
    unfold upB
    by_cases hjl : j = (ks1.drop (s + 1)).length
    · rw [if_pos hjl, if_pos (by omega)]
    · rw [if_neg hjl, if_neg (by omega), List.getElem?_drop]
  rw [hlb, hub]
  exact hg

/-- A key strictly between the separators adjacent to position `c` is
inserted exactly at `c` by `bisect_left` (this is why the parent's
`bisect_left(self._keys, pkey)` recomputes the child position). -/
theorem promoted_position {ks : List Nat} {lo hi : Option Nat} {c pk : Nat}
    (hp : ks.Pairwise (· < ·)) (hc : c ≤ ks.length)
    (hlo : oLt (lowB lo ks c) pk) (hhi : kLt pk (upB ks hi c)) :
    bisect_left ks pk = c := by
  refine bisect_left_eq_of ks pk hp c hc ?_ ?_
  · intro j hj hjc
    have hc1 : c - 1 < ks.length := by omega
    have hlb : lowB lo ks c = some ks[c - 1] := by
      unfold lowB
      rw [if_neg (by omega), List.getElem?_eq_getElem hc1]
    rw [hlb] at hlo
    simp only [oLt] at hlo
    rcases Nat.eq_or_lt_of_le (show j ≤ c - 1 by omega) with he | hl
    · subst he
      exact hlo
    · have := List.pairwise_iff_getElem.mp hp j (c - 1) hj hc1 hl
      omega
  · intro j hj hjc
    have hcl : c < ks.length := by omega
    have hub : upB ks hi c = some ks[c] := by
      unfold upB
      rw [if_neg (by omega), List.getElem?_eq_getElem hcl]
    rw [hub] at hhi
    simp only [kLt] at hhi
    rcases Nat.eq_or_lt_of_le hjc with he | hl
    · subst he
      exact Nat.le_of_lt hhi
    · have := List.pairwise_iff_getElem.mp hp c j hcl hj hl
      omega

/-- A promoted key strictly inside a child's interval lies in the
node's own interval. -/
theorem promoted_inB {ks : List Nat} {lo hi : Option Nat} {c pk : Nat}
    (hb : ∀ k ∈ ks, inB lo hi k) (hc : c ≤ ks.length)
    (hlo : oLt (lowB lo ks c) pk) (hhi : kLt pk (upB ks hi c)) :
    inB lo hi pk := by
  constructor
  · by_cases h0 : c = 0
    · rw [h0] at hlo
      unfold lowB at hlo
      rw [if_pos rfl] at hlo
      cases lo with
      | none => trivial
      | some l =>
        simp only [oLt] at hlo
        show l ≤ pk
        omega
    · have hc1 : c - 1 < ks.length := by omega
      have hlb : lowB lo ks c = some ks[c - 1] := by
        unfold lowB
        rw [if_neg (by omega), List.getElem?_eq_getElem hc1]
      rw [hlb] at hlo
      simp only [oLt] at hlo
      exact oLe_of_le (hb _ (List.getElem_mem hc1)).1 (by omega)
  · by_cases hl : c = ks.length
    · rw [hl] at hhi
      unfold upB at hhi
      rw [if_pos rfl] at hhi
      exact hhi
    · have hcl : c < ks.length := by omega
      have hub : upB ks hi c = some ks[c] := by
        unfold upB
        rw [if_neg (by omega), List.getElem?_eq_getElem hcl]
      rw [hub] at hhi
      simp only [kLt] at hhi
      exact kLt_of_ge (hb _ (List.getElem_mem hcl)).2 (by omega)

/-- The separator list after inserting a promoted key is sorted and stays
inside the node's interval. -/
theorem assembled_keys_facts {ks : List Nat} {lo hi : Option Nat} {c pk : Nat}
    (hp : ks.Pairwise (· < ·)) (hb : ∀ k ∈ ks, inB lo hi k) (hc : c ≤ ks.length)
    (hlo : oLt (lowB lo ks c) pk) (hhi : kLt pk (upB ks hi c)) :
    (pyInsert ks c pk).Pairwise (· < ·)
    ∧ (∀ k ∈ pyInsert ks c pk, inB lo hi k) := by
  have hlow : ∀ j y, ks[j]? = some y → j < c → y < pk := by
    intro j y hjy hjc
    obtain ⟨hj, he⟩ := List.getElem?_eq_some_iff.mp hjy
    subst he
    have hc1 : c - 1 < ks.length := by omega
    have hlb : lowB lo ks c = some ks[c - 1] := by
      unfold lowB
      rw [if_neg (by omega), List.getElem?_eq_getElem hc1]
    rw [hlb] at hlo
    simp only [oLt] at hlo
    rcases Nat.eq_or_lt_of_le (show j ≤ c - 1 by omega) with he | hl
    · subst he
      exact hlo
    · have := List.pairwise_iff_getElem.mp hp j (c - 1) hj hc1 hl
      omega
  have hhigh : ∀ j y, ks[j]? = some y → c ≤ j → pk < y := by
    intro j y hjy hjc
    obtain ⟨hj, he⟩ := List.getElem?_eq_some_iff.mp hjy
    subst he
    have hcl : c < ks.length := by omega
    have hub : upB ks hi c = some ks[c] := by
      unfold upB
      rw [if_neg (by omega), List.getElem?_eq_getElem hcl]
    rw [hub] at hhi
    simp only [kLt] at hhi
    rcases Nat.eq_or_lt_of_le hjc with he | hl
    · subst he
      exact hhi
    · have := List.pairwise_iff_getElem.mp hp c j hcl hj hl
      omega
  constructor
  · exact pairwise_lt_pyInsert ks c pk hc hp hlow hhigh
  · intro k hk
    rcases (mem_pyInsert ks c pk k).mp hk with rfl | hk2
    · exact promoted_inB hb hc hlo hhi
    · exact hb k hk2

/-- An element with a strictly sorted prefix below it bounds the interval
strictly from above the node's lower bound. -/
theorem split_key_oLt {ks1 : List Nat} {lo hi : Option Nat} {s pkey : Nat}
    (hp : ks1.Pairwise (· < ·)) (hb : ∀ k ∈ ks1, inB lo hi k)
    (hs1 : 1 ≤ s) (hpkey : ks1[s]? = some pkey) :
    oLt lo pkey := by
  have hs : s < ks1.length := (List.getElem?_eq_some_iff.mp hpkey).1
  cases lo with
  | none => trivial
  | some l =>
    have h0 : ks1[0]? = some ks1[0] := List.getElem?_eq_getElem (by omega)
    have h01 := pairwise_lt_getElem? hp h0 hpkey (by omega)
    have h02 := (hb ks1[0] (List.getElem_mem (by omega))).1
    show l < pkey
    simp only [oLe] at h02
    omega

theorem leafIdxsSeq_decomp (cs : List NodeT) (c : Nat) (hc : c < cs.length) :
    leafIdxsSeq cs
    = leafIdxsSeq (cs.take c) ++ (leafIdxs cs[c] ++ leafIdxsSeq (cs.drop (c + 1))) := by
  conv =>
    left
    rw [← take_cons_drop_eq cs c hc]
  rw [leafIdxsSeq_append]
  rfl

theorem subKeysSeq_decomp (A : List LeafRec) (cs : List NodeT) (c : Nat)
    (hc : c < cs.length) :
    subKeysSeq A cs
    = subKeysSeq A (cs.take c) ++ (subKeys A cs[c] ++ subKeysSeq A (cs.drop (c + 1))) := by
  conv =>
    left
    rw [← take_cons_drop_eq cs c hc]
  rw [subKeysSeq_append]
  rfl

theorem pyInsert_set_decomp (cs : List NodeT) (c : Nat) (hc : c < cs.length)
    (x y : NodeT) :
    pyInsert (cs.set c x) (c + 1) y = cs.take c ++ x :: y :: cs.drop (c + 1) := by
  rw [set_eq_take_cons_drop cs c x hc]
  have h1 : (cs.take c).length = c := by
    rw [List.length_take]
    omega
  have := pyInsert_append_cons (cs.take c) x (cs.drop (c + 1)) y
  rw [h1] at this
  exact this

theorem insert_here_no_split (cap : Nat) (ks : List Nat) (cs : List NodeT)
    (pos pk : Nat) (pn : NodeT) (h : ¬ cap < (pyInsert ks pos pk).length) :
    insert_here cap ks cs pos pk pn
    = ((pyInsert ks pos pk, pyInsert cs (pos + 1) pn), none) := by
  unfold insert_here
  rw [if_neg h]

theorem insert_here_split (cap : Nat) (ks : List Nat) (cs : List NodeT)
    (pos pk : Nat) (pn : NodeT)
    (hp1 : (pyInsert ks pos pk).Pairwise (· < ·))
    (h : cap < (pyInsert ks pos pk).length)
    (hs : (cap + 1) / 2 < (pyInsert ks pos pk).length) :
    insert_here cap ks cs pos pk pn
    = (((pyInsert ks pos pk).take ((cap + 1) / 2),
        (pyInsert cs (pos + 1) pn).take ((cap + 1) / 2 + 1)),
       some ((pyInsert ks pos pk)[(cap + 1) / 2],
         .node ((pyInsert ks pos pk).drop ((cap + 1) / 2 + 1))
               ((pyInsert cs (pos + 1) pn).drop ((cap + 1) / 2 + 1)))) := by
  unfold insert_here
  rw [if_pos h]
  have hgd : (pyInsert ks pos pk).getD ((cap + 1) / 2) 0
      = (pyInsert ks pos pk)[(cap + 1) / 2] := List.getD_eq_getElem _ 0 hs
  have hremove : pyRemove (pyInsert ks pos pk) ((pyInsert ks pos pk)[(cap + 1) / 2])
      = (pyInsert ks pos pk).take ((cap + 1) / 2)
        ++ (pyInsert ks pos pk).drop ((cap + 1) / 2 + 1) := by
    refine pyRemove_eq_of _ _ ((cap + 1) / 2) (List.getElem?_eq_getElem hs) ?_
    intro j y hy hj
    have := pairwise_lt_getElem? hp1 hy (List.getElem?_eq_getElem hs) hj
    omega
  have hlt : ((pyInsert ks pos pk).take ((cap + 1) / 2)).length = (cap + 1) / 2 := by
    rw [List.length_take]
    omega
  have htake : ((pyInsert ks pos pk).take ((cap + 1) / 2)
      ++ (pyInsert ks pos pk).drop ((cap + 1) / 2 + 1)).take ((cap + 1) / 2)
      = (pyInsert ks pos pk).take ((cap + 1) / 2) := by
    rw [List.take_append_eq_append_take]
    rw [List.take_of_length_le (by omega), hlt]
    simp
  have hdrop : ((pyInsert ks pos pk).take ((cap + 1) / 2)
      ++ (pyInsert ks pos pk).drop ((cap + 1) / 2 + 1)).drop ((cap + 1) / 2)
      = (pyInsert ks pos pk).drop ((cap + 1) / 2 + 1) := by
    rw [List.drop_append_eq_append_drop]
    rw [List.drop_eq_nil_of_le (by omega), hlt]
    simp
  simp only [hgd, hremove, htake, hdrop]

set_option maxHeartbeats 1600000 in
/-- `nodeInsert` meets its contract on every well-formed subtree. -/
theorem nodeInsert_out (cap : Nat) (hcap : 1 ≤ cap) (key : Nat) :
    ∀ (d : Nat) (n : NodeT) (A : List LeafRec) (lo hi : Option Nat),
    Good cap A n d lo hi → (leafIdxs n).Nodup → inB lo hi key →
    InsOut cap A key d lo hi n (nodeInsert cap n A key) := by
  intro d
  induction d with
  | zero =>
    intro n A lo hi hg hnd hkey
    cases hg with
    | leaf i lo hi lf hA hp hb hl =>
      exact leafInsert_out cap hcap A key (Good.leaf i lo hi lf hA hp hb hl) hkey
  | succ d ih =>
    intro n A lo hi hg hnd hkey
    cases hg with
    | node ks cs d lo hi hlen hcap2 hp hb hch =>
      have hndseq : (leafIdxsSeq cs).Nodup := by simpa [leafIdxs] using hnd
      have hcle : bisect_right ks key ≤ ks.length := bisect_right_le_length ks key hp
      set c := bisect_right ks key with hcdef
      have hclt : c < cs.length := by omega
      have hchild : cs[c]? = some cs[c] := List.getElem?_eq_getElem hclt
      have hseqI : leafIdxsSeq cs
          = leafIdxsSeq (cs.take c) ++ (leafIdxs cs[c] ++ leafIdxsSeq (cs.drop (c + 1))) :=
        leafIdxsSeq_decomp cs c hclt
      have hseqK : subKeysSeq A cs
          = subKeysSeq A (cs.take c) ++ (subKeys A cs[c] ++ subKeysSeq A (cs.drop (c + 1))) :=
        subKeysSeq_decomp A cs c hclt
      have hndmid : (leafIdxs cs[c]).Nodup := by
        rw [hseqI] at hndseq
        have h1 := (List.nodup_append.mp hndseq).2.1
        exact (List.nodup_append.mp h1).1
      have hroute := route_inB hp hkey
      have hOut := ih cs[c] A (lowB lo ks c) (upB ks hi c) (hch c _ hchild) hndmid hroute
      rcases hre : nodeInsert cap cs[c] A key with ⟨n2, A2, p2⟩
      rw [hre] at hOut
      have hsib : ∀ (j : Nat) (cj : NodeT), j ≠ c → cs[j]? = some cj →
          ∀ x ∈ leafIdxs cj, A2[x]? = A[x]? := by
        intro j cj hjc hj x hx
        refine hOut.frame x ?_ ?_
        · exact Good_leafIdxs_lt (hch j cj hj) x hx
        · exact nodup_children_disjoint cs hndseq j c cj cs[c] hjc hj hchild x hx
      have hsibGood : ∀ (j : Nat) (cj : NodeT), cs[j]? = some cj → j ≠ c →
          Good cap A2 cj d (lowB lo ks j) (upB ks hi j) :=
        fun j cj hj hjc => Good_congr (hch j cj hj) A2 (hsib j cj hjc hj)
      have hPfr : ∀ x ∈ leafIdxsSeq (cs.take c), A2[x]? = A[x]? := by
        intro x hx
        obtain ⟨j, cj, hj, hxj⟩ := (mem_leafIdxsSeq _ x).mp hx
        rw [List.getElem?_take] at hj
        by_cases hjc : j < c
        · rw [if_pos hjc] at hj
          exact hsib j cj (by omega) hj x hxj
        · rw [if_neg hjc] at hj
          exact absurd hj (by simp)
      have hQfr : ∀ x ∈ leafIdxsSeq (cs.drop (c + 1)), A2[x]? = A[x]? := by
        intro x hx
        obtain ⟨j, cj, hj, hxj⟩ := (mem_leafIdxsSeq _ x).mp hx
        rw [List.getElem?_drop] at hj
        exact hsib (c + 1 + j) cj (by omega) hj x hxj
      have hPkeys : subKeysSeq A2 (cs.take c) = subKeysSeq A (cs.take c) :=
        subKeysSeq_congr A A2 _ hPfr
      have hQkeys : subKeysSeq A2 (cs.drop (c + 1)) = subKeysSeq A (cs.drop (c + 1)) :=
        subKeysSeq_congr A A2 _ hQfr
      have hframe_all : ∀ j, j < A.length → j ∉ leafIdxs (NodeT.node ks cs) → A2[j]? = A[j]? := by
        intro j hj hjn
        refine hOut.frame j hj ?_
        intro hjc
        exact hjn (by
          show j ∈ leafIdxsSeq cs
          exact (mem_leafIdxsSeq cs j).mpr ⟨c, cs[c], hchild, hjc⟩)
      rcases p2 with _ | ⟨pk, pn⟩
      · -- the child absorbed the insert: just write the updated child back
        have hstep : nodeInsert cap (NodeT.node ks cs) A key
            = (NodeT.node ks (cs.set c n2), A2, none) := by
          simp only [nodeInsert]
          rw [← hcdef, insertChild_eq cap cs c A key cs[c] hchild, hre]
        rw [hstep]
        have hgood2 : Good cap A2 n2 d (lowB lo ks c) (upB ks hi c) := hOut.good
        have hmem2 := hOut.mem
        have hsetd : cs.set c n2 = cs.take c ++ n2 :: cs.drop (c + 1) :=
          set_eq_take_cons_drop cs c n2 hclt
        refine ⟨hOut.alen, hframe_all, ?_, ?_, ?_, ?_⟩
        · -- mem
          intro x
          have h1 : outKeys A2 (NodeT.node ks (cs.set c n2)) none
              = subKeysSeq A2 (cs.take c)
                ++ (subKeys A2 n2 ++ subKeysSeq A2 (cs.drop (c + 1))) := by
            simp only [outKeys, subKeys, hsetd, subKeysSeq_append, subKeysSeq]
            simp
          rw [h1, hPkeys, hQkeys]
          have h2 := hmem2 x
          simp only [outKeys, List.append_nil] at h2
          show _ ↔ x ∈ subKeys A (NodeT.node ks cs) ∨ x = key
          rw [show subKeys A (NodeT.node ks cs) = subKeysSeq A cs from rfl, hseqK]
          simp only [List.mem_append] at h2 ⊢
          tauto
        · -- good
          show Good cap A2 (NodeT.node ks (cs.set c n2)) (d + 1) lo hi
          refine Good.node ks (cs.set c n2) d lo hi (by simp [hlen]) hcap2 hp hb ?_
          intro j cj hj
          rw [List.getElem?_set] at hj
          by_cases hjc : c = j
          · subst hjc
            rw [if_pos rfl, if_pos hclt] at hj
            have : n2 = cj := by injection hj
            subst this
            exact hgood2
          · rw [if_neg hjc] at hj
            exact hsibGood j cj hj (by omega)
        · -- splice
          have htot : outIdxs (NodeT.node ks (cs.set c n2)) none
              = leafIdxsSeq (cs.take c) ++ (leafIdxs n2 ++ leafIdxsSeq (cs.drop (c + 1))) := by
            simp only [outIdxs, leafIdxs, hsetd, leafIdxsSeq_append, leafIdxsSeq]
            simp
          have hsp := hOut.splice
          simp only [outIdxs, List.append_nil] at hsp
          rcases hsp with ⟨ha1, ha2, ha3⟩ | ⟨xs, i, ys, hb1, hb2, hb3, hb4, hb5, hb6⟩
          · left
            refine ⟨?_, ha2, ha3⟩
            rw [htot, ha1]
            show _ = leafIdxsSeq cs
            rw [hseqI]
          · right
            refine ⟨leafIdxsSeq (cs.take c) ++ xs, i, ys ++ leafIdxsSeq (cs.drop (c + 1)),
              ?_, ?_, hb3, hb4, hb5, hb6⟩
            · show leafIdxsSeq cs = _
              rw [hseqI, hb1]
              simp [List.append_assoc]
            · rw [htot, hb2]
              simp [List.append_assoc]
        · -- noop
          intro hx
          have hxc : key ∈ subKeys A cs[c] :=
            mem_routed hlen hp hch hchild (by simpa [subKeys] using hx)
          have hq := hOut.noop hxc
          have hn2 : n2 = cs[c] := congrArg (fun t => t.1) hq
          have hA2 : A2 = A := congrArg (fun t => t.2.1) hq
          rw [hn2, hA2, set_self_of_getElem? cs c cs[c] hchild]
      · -- the child split: insert the promoted key and sibling here
        obtain ⟨hgl, hgr, holt, hklt⟩ :
            Good cap A2 n2 d (lowB lo ks c) (some pk)
            ∧ Good cap A2 pn d (some pk) (upB ks hi c)
            ∧ oLt (lowB lo ks c) pk ∧ kLt pk (upB ks hi c) := hOut.good
        have hpos : bisect_left ks pk = c := promoted_position hp hcle holt hklt
        have hkf := assembled_keys_facts hp hb hcle holt hklt
        have hpw1 : (pyInsert ks c pk).Pairwise (· < ·) := hkf.1
        have hb1 : ∀ k ∈ pyInsert ks c pk, inB lo hi k := hkf.2
        have hlen1 : (pyInsert ks c pk).length = ks.length + 1 := pyInsert_length _ _ _
        have hcs1len : (pyInsert (cs.set c n2) (c + 1) pn).length = ks.length + 2 := by
          rw [pyInsert_length, List.length_set]
          omega
        have hach : ∀ (j : Nat) (cj : NodeT),
            (pyInsert (cs.set c n2) (c + 1) pn)[j]? = some cj →
            Good cap A2 cj d (lowB lo (pyInsert ks c pk) j)
              (upB (pyInsert ks c pk) hi j) := by
          refine assembled_children (by simp [hlen]) hcle ?_ ?_ hgl hgr
          · intro j cj hj hjc
            rw [List.getElem?_set, if_neg (by omega)] at hj
            exact hsibGood j cj hj hjc
          · rw [List.getElem?_set, if_pos rfl, if_pos hclt]
        have hsetd : cs.set c n2 = cs.take c ++ n2 :: cs.drop (c + 1) :=
          set_eq_take_cons_drop cs c n2 hclt
        have hcs1d : pyInsert (cs.set c n2) (c + 1) pn
            = cs.take c ++ n2 :: pn :: cs.drop (c + 1) :=
          pyInsert_set_decomp cs c hclt n2 pn
        -- the total leaf keys and leaf indices of the assembled node
        have hkeyTot : ∀ x, x ∈ subKeysSeq A2 (pyInsert (cs.set c n2) (c + 1) pn)
            ↔ x ∈ subKeysSeq A cs ∨ x = key := by
          intro x
          have h1 : subKeysSeq A2 (pyInsert (cs.set c n2) (c + 1) pn)
              = subKeysSeq A2 (cs.take c)
                ++ ((subKeys A2 n2 ++ subKeys A2 pn) ++ subKeysSeq A2 (cs.drop (c + 1))) := by
            rw [hcs1d, subKeysSeq_append]
            simp only [subKeysSeq]
            simp [List.append_assoc]
          rw [h1, hPkeys, hQkeys]
          have h2 := hOut.mem x
          simp only [outKeys] at h2
          rw [hseqK]
          simp only [List.mem_append] at h2 ⊢
          tauto
        have hidxTot : leafIdxsSeq (pyInsert (cs.set c n2) (c + 1) pn)
            = leafIdxsSeq (cs.take c)
              ++ ((leafIdxs n2 ++ leafIdxs pn) ++ leafIdxsSeq (cs.drop (c + 1))) := by
          rw [hcs1d, leafIdxsSeq_append]
          simp only [leafIdxsSeq]
          simp [List.append_assoc]
        have hspliceTot :
            (leafIdxsSeq (pyInsert (cs.set c n2) (c + 1) pn) = leafIdxsSeq cs
              ∧ A2.length = A.length ∧ (∀ m, nxt A2 m = nxt A m))
            ∨ (∃ xs i ys, leafIdxsSeq cs = xs ++ i :: ys
              ∧ leafIdxsSeq (pyInsert (cs.set c n2) (c + 1) pn)
                  = xs ++ i :: A.length :: ys
              ∧ A2.length = A.length + 1
              ∧ nxt A2 i = some A.length
              ∧ nxt A2 A.length = nxt A i
              ∧ (∀ m, m ≠ i → m ≠ A.length → nxt A2 m = nxt A m)) := by
          have hsp := hOut.splice
          simp only [outIdxs] at hsp
          rcases hsp with ⟨ha1, ha2, ha3⟩ | ⟨xs, i, ys, hb1, hb2, hb3, hb4, hb5, hb6⟩
          · left
            refine ⟨?_, ha2, ha3⟩
            rw [hidxTot, ha1, ← hseqI]
          · right
            refine ⟨leafIdxsSeq (cs.take c) ++ xs, i, ys ++ leafIdxsSeq (cs.drop (c + 1)),
              ?_, ?_, hb3, hb4, hb5, hb6⟩
            · rw [hseqI, hb1]
              simp [List.append_assoc]
            · rw [hidxTot, hb2]
              simp [List.append_assoc]
        have hnoop2 : key ∈ subKeys A (NodeT.node ks cs) → False := by
          intro hx
          have hxc : key ∈ subKeys A cs[c] :=
            mem_routed hlen hp hch hchild (by simpa [subKeys] using hx)
          have hq := hOut.noop hxc
          have : (some (pk, pn) : Option (Nat × NodeT)) = none :=
            congrArg (fun t => t.2.2) hq
          exact absurd this (by simp)
        by_cases hovf : cap < (pyInsert ks c pk).length
        · -- this node overflows too: split it
          have hkse : ks.length = cap := by omega
          have hs1 : 1 ≤ (cap + 1) / 2 := by omega
          have hscap : (cap + 1) / 2 ≤ cap := by omega
          have hslt : (cap + 1) / 2 < (pyInsert ks c pk).length := by omega
          have hstep : nodeInsert cap (NodeT.node ks cs) A key
              = (NodeT.node ((pyInsert ks c pk).take ((cap + 1) / 2))
                  ((pyInsert (cs.set c n2) (c + 1) pn).take ((cap + 1) / 2 + 1)),
                 A2,
                 some ((pyInsert ks c pk)[(cap + 1) / 2],
                   NodeT.node ((pyInsert ks c pk).drop ((cap + 1) / 2 + 1))
                     ((pyInsert (cs.set c n2) (c + 1) pn).drop ((cap + 1) / 2 + 1)))) := by
            simp only [nodeInsert]
            rw [← hcdef, insertChild_eq cap cs c A key cs[c] hchild, hre]
            show (NodeT.node _ _, A2, _) = _
            rw [hpos, insert_here_split cap ks (cs.set c n2) c pk pn hpw1 hovf hslt]
          rw [hstep]
          have hpkey? : (pyInsert ks c pk)[(cap + 1) / 2]?
              = some (pyInsert ks c pk)[(cap + 1) / 2] := List.getElem?_eq_getElem hslt
          refine ⟨hOut.alen, hframe_all, ?_, ?_, ?_, fun hx => absurd hx hnoop2⟩
          · -- mem
            intro x
            have h1 : outKeys A2
                (NodeT.node ((pyInsert ks c pk).take ((cap + 1) / 2))
                  ((pyInsert (cs.set c n2) (c + 1) pn).take ((cap + 1) / 2 + 1)))
                (some ((pyInsert ks c pk)[(cap + 1) / 2],
                  NodeT.node ((pyInsert ks c pk).drop ((cap + 1) / 2 + 1))
                    ((pyInsert (cs.set c n2) (c + 1) pn).drop ((cap + 1) / 2 + 1))))
                = subKeysSeq A2 ((pyInsert (cs.set c n2) (c + 1) pn).take ((cap + 1) / 2 + 1))
                  ++ subKeysSeq A2 ((pyInsert (cs.set c n2) (c + 1) pn).drop ((cap + 1) / 2 + 1)) := by
              simp [outKeys, subKeys]
            rw [h1, ← subKeysSeq_append, List.take_append_drop]
            exact (hkeyTot x).trans (by rw [show subKeys A (NodeT.node ks cs) = subKeysSeq A cs from rfl])
          · -- good
            show Good cap A2 _ (d + 1) lo (some _) ∧ Good cap A2 _ (d + 1) (some _) hi
              ∧ oLt lo _ ∧ kLt _ hi
            have htlen : ((pyInsert ks c pk).take ((cap + 1) / 2)).length = (cap + 1) / 2 := by
              rw [List.length_take]
              omega
            have hdlen : ((pyInsert ks c pk).drop ((cap + 1) / 2 + 1)).length
                = cap - (cap + 1) / 2 := by
              rw [List.length_drop]
              omega
            refine ⟨?_, ?_, ?_, ?_⟩
            · refine Good.node _ _ d lo (some (pyInsert ks c pk)[(cap + 1) / 2]) ?_ ?_
                (List.Pairwise.sublist (List.take_sublist _ _) hpw1) ?_ ?_
              · rw [List.length_take, List.length_take]
                omega
              · omega
              · intro k hk
                obtain ⟨m, hms, hmk⟩ := mem_take_getElem? _ _ _ hk
                refine ⟨(hb1 k (List.mem_iff_getElem?.mpr ⟨_, hmk⟩)).1, ?_⟩
                show k < _
                exact pairwise_lt_getElem? hpw1 hmk hpkey? hms
              · exact split_children_left (by omega) hslt hpkey? hach
            · refine Good.node _ _ d (some (pyInsert ks c pk)[(cap + 1) / 2]) hi ?_ ?_
                (List.Pairwise.sublist (List.drop_sublist _ _) hpw1) ?_ ?_
              · rw [List.length_drop, List.length_drop]
                omega
              · omega
              · intro k hk
                obtain ⟨m, hms, hmk⟩ := mem_drop_getElem? _ _ _ hk
                constructor
                · show _ ≤ k
                  have := pairwise_lt_getElem? hpw1 hpkey? hmk (by omega)
                  omega
                · exact (hb1 k (List.mem_iff_getElem?.mpr ⟨_, hmk⟩)).2
              · exact split_children_right (by omega) hslt hpkey? hach
            · exact split_key_oLt hpw1 hb1 hs1 hpkey?
            · exact (hb1 _ (List.mem_iff_getElem?.mpr ⟨_, hpkey?⟩)).2
          · -- splice
            have htot : outIdxs
                (NodeT.node ((pyInsert ks c pk).take ((cap + 1) / 2))
                  ((pyInsert (cs.set c n2) (c + 1) pn).take ((cap + 1) / 2 + 1)))
                (some ((pyInsert ks c pk)[(cap + 1) / 2],
                  NodeT.node ((pyInsert ks c pk).drop ((cap + 1) / 2 + 1))
                    ((pyInsert (cs.set c n2) (c + 1) pn).drop ((cap + 1) / 2 + 1))))
                = leafIdxsSeq (pyInsert (cs.set c n2) (c + 1) pn) := by
              simp only [outIdxs, leafIdxs]
              rw [← leafIdxsSeq_append, List.take_append_drop]
            rw [htot]
            exact hspliceTot
        · -- this node still has room
          have hstep : nodeInsert cap (NodeT.node ks cs) A key
              = (NodeT.node (pyInsert ks c pk) (pyInsert (cs.set c n2) (c + 1) pn),
                 A2, none) := by
            simp only [nodeInsert]
            rw [← hcdef, insertChild_eq cap cs c A key cs[c] hchild, hre]
            show (NodeT.node _ _, A2, _) = _
            rw [hpos, insert_here_no_split cap ks (cs.set c n2) c pk pn hovf]
          rw [hstep]
          refine ⟨hOut.alen, hframe_all, ?_, ?_, ?_, fun hx => absurd hx hnoop2⟩
          · -- mem
            intro x
            have h1 : outKeys A2
                (NodeT.node (pyInsert ks c pk) (pyInsert (cs.set c n2) (c + 1) pn)) none
                = subKeysSeq A2 (pyInsert (cs.set c n2) (c + 1) pn) := by
              simp [outKeys, subKeys]
            rw [h1]
            exact (hkeyTot x).trans (by rw [show subKeys A (NodeT.node ks cs) = subKeysSeq A cs from rfl])
          · -- good
            show Good cap A2 _ (d + 1) lo hi
            refine Good.node _ _ d lo hi ?_ (by omega) hpw1 hb1 hach
            rw [hcs1len, hlen1]
          · -- splice
            have htot : outIdxs
                (NodeT.node (pyInsert ks c pk) (pyInsert (cs.set c n2) (c + 1) pn)) none
                = leafIdxsSeq (pyInsert (cs.set c n2) (c + 1) pn) := by
              simp [outIdxs, leafIdxs]
            rw [htot]
            exact hspliceTot

/-! ## Maintaining the leaf chain across an insert -/

theorem ChainOK_cons (A : List LeafRec) (a : Nat) (L : List Nat) :
    ChainOK A (a :: L) ↔ nxt A a = L.head? ∧ ChainOK A L := by
  cases L with
  | nil => simp [ChainOK]
  | cons j rest => simp [ChainOK]

theorem ChainOK_congr_mem (A A' : List LeafRec) :
    ∀ L : List Nat, (∀ m ∈ L, nxt A' m = nxt A m) → ChainOK A L → ChainOK A' L := by
  intro L
  induction L with
  | nil => intro _ _; trivial
  | cons a rest ih =>
    intro hagree hc
    rw [ChainOK_cons] at hc ⊢
    exact ⟨by rw [hagree a (by simp)]; exact hc.1,
      ih (fun m hm => hagree m (by simp [hm])) hc.2⟩

theorem head?_append_cons (xs : List Nat) (i n : Nat) (ys : List Nat) :
    (xs ++ i :: n :: ys).head? = (xs ++ i :: ys).head? := by
  cases xs with
  | nil => rfl
  | cons x xs2 => rfl

/-- Splicing a freshly allocated leaf right after the split leaf keeps the
chain well linked. -/
theorem ChainOK_splice (A A' : List LeafRec) (i n : Nat)
    (hni : nxt A' i = some n) (hnn : nxt A' n = nxt A i)
    (hother : ∀ m, m ≠ i → m ≠ n → nxt A' m = nxt A m) :
    ∀ xs ys : List Nat, ChainOK A (xs ++ i :: ys) →
    (∀ x ∈ xs ++ i :: ys, x ≠ n) → (xs ++ i :: ys).Nodup →
    ChainOK A' (xs ++ i :: n :: ys) := by
  intro xs
  induction xs with
  | nil =>
    intro ys hchain hfresh hnd
    simp only [List.nil_append] at *
    rw [ChainOK_cons] at hchain
    rw [ChainOK_cons]
    refine ⟨by rw [hni]; rfl, ?_⟩
    rw [ChainOK_cons]
    refine ⟨by rw [hnn]; exact hchain.1, ?_⟩
    refine ChainOK_congr_mem A A' ys ?_ hchain.2
    intro m hm
    refine hother m ?_ ?_
    · intro he
      subst he
      exact (List.nodup_cons.mp hnd).1 hm
    · intro he
      subst he
      exact hfresh m (by simp [hm]) rfl
  | cons x xs2 ih =>
    intro ys hchain hfresh hnd
    rw [List.cons_append] at hchain ⊢
    rw [ChainOK_cons] at hchain
    rw [ChainOK_cons]
    constructor
    · rw [head?_append_cons]
      rw [hother x ?_ ?_]
      · exact hchain.1
      · intro he
        subst he
        exact (List.nodup_cons.mp hnd).1 (by simp)
      · exact hfresh x (by simp)
    · exact ih ys hchain.2 (fun m hm => hfresh m (by simp [hm]))
        (List.nodup_cons.mp hnd).2

/-- Splicing a fresh index into a duplicate-free list keeps it
duplicate free. -/
theorem nodup_splice (xs : List Nat) (i n : Nat) (ys : List Nat)
    (hnd : (xs ++ i :: ys).Nodup) (hfresh : ∀ x ∈ xs ++ i :: ys, x ≠ n) :
    (xs ++ i :: n :: ys).Nodup := by
  rw [List.nodup_append] at hnd ⊢
  obtain ⟨h1, h2, h3⟩ := hnd
  rw [List.nodup_cons] at h2
  refine ⟨h1, ?_, ?_⟩
  · rw [List.nodup_cons, List.nodup_cons]
    refine ⟨?_, ?_, h2.2⟩
    · simp only [List.mem_cons]
      rintro (he | hm)
      · exact hfresh i (by simp) he
      · exact h2.1 hm
    · intro hm
      exact hfresh n (by simp [hm]) rfl
  · intro x hx
    simp only [List.mem_cons]
    rintro (he | he | hm)
    · exact h3 hx (by simp [he])
    · exact hfresh x (by simp [hx]) he
    · exact h3 hx (by simp [hm])

/-- The set of keys stored at the leaf level of a tree. -/
def keySet (t : BPTree) : List Nat := subKeys t.arena t.root

theorem TreeInv_new (cap : Nat) (hcap : 1 ≤ cap) : TreeInv (BPTree.new cap) := by
  refine ⟨hcap, ⟨0, ?_⟩, by simp [BPTree.new, leafIdxs], ?_⟩
  · exact Good.leaf 0 none none ⟨[], none⟩ rfl (by simp) (by simp) (by simp)
  · show ChainOK _ [0]
    simp [ChainOK, nxt, BPTree.new]

set_option maxHeartbeats 800000 in
/-- Everything one public `insert` call guarantees: the invariant is
preserved, the key set gains exactly `key`, the capacity is unchanged,
the height either stays or grows by one with a fresh two-child root, and
inserting a present key is a no-op. -/
theorem insert_master {t : BPTree} (ti : TreeInv t) (key : Nat) :
    TreeInv (t.insert key)
    ∧ (∀ x, x ∈ keySet (t.insert key) ↔ x ∈ keySet t ∨ x = key)
    ∧ (t.insert key).capacity = t.capacity
    ∧ (heightN (t.insert key).root = heightN t.root
       ∨ (heightN (t.insert key).root = heightN t.root + 1
          ∧ ∃ pk a b, (t.insert key).root = NodeT.node [pk] [a, b]))
    ∧ (key ∈ keySet t → t.insert key = t) := by
  obtain ⟨d, hg⟩ := ti.good
  have hOut := nodeInsert_out t.capacity ti.cap_pos key d t.root t.arena none none hg
    ti.nodup ⟨trivial, trivial⟩
  have hfresh : ∀ x ∈ leafIdxs t.root, x ≠ t.arena.length := by
    intro x hx he
    have := Good_leafIdxs_lt hg x hx
    omega
  have hd : heightN t.root = d := Good_height hg
  rcases hre : nodeInsert t.capacity t.root t.arena key with ⟨n2, A2, p2⟩
  rw [hre] at hOut
  rcases p2 with _ | ⟨pk, pn⟩
  · -- no promotion at the root
    have hstep : t.insert key = ⟨t.capacity, A2, n2⟩ := by
      simp only [BPTree.insert, hre]
    rw [hstep]
    have hsp := hOut.splice
    simp only [outIdxs, List.append_nil] at hsp
    have hti2 : TreeInv ⟨t.capacity, A2, n2⟩ := by
      refine ⟨ti.cap_pos, ⟨d, hOut.good⟩, ?_, ?_⟩
      · show (leafIdxs n2).Nodup
        rcases hsp with ⟨ha1, _, _⟩ | ⟨xs, i, ys, hb1, hb2, _, _, _, _⟩
        · rw [ha1]; exact ti.nodup
        · rw [hb2]
          refine nodup_splice xs i t.arena.length ys ?_ ?_
          · rw [← hb1]; exact ti.nodup
          · rw [← hb1]; exact hfresh
      · show ChainOK A2 (leafIdxs n2)
        rcases hsp with ⟨ha1, _, ha3⟩ | ⟨xs, i, ys, hb1, hb2, _, hb4, hb5, hb6⟩
        · rw [ha1]
          exact ChainOK_congr_mem t.arena A2 _ (fun m _ => ha3 m) ti.chain
        · rw [hb2]
          refine ChainOK_splice t.arena A2 i t.arena.length hb4 hb5 hb6 xs ys ?_ ?_ ?_
          · rw [← hb1]; exact ti.chain
          · rw [← hb1]; exact hfresh
          · rw [← hb1]; exact ti.nodup
    refine ⟨hti2, ?_, rfl, ?_, ?_⟩
    · intro x
      have h2 := hOut.mem x
      simp only [outKeys, List.append_nil] at h2
      exact h2
    · left
      show heightN n2 = heightN t.root
      rw [hd]
      exact Good_height hOut.good
    · intro hx
      have hq := hOut.noop hx
      have hn2 : n2 = t.root := congrArg (fun r => r.1) hq
      have hA2 : A2 = t.arena := congrArg (fun r => r.2.1) hq
      rw [hn2, hA2]
  · -- root promotion: a new root is created
    have hstep : t.insert key = ⟨t.capacity, A2, NodeT.node [pk] [n2, pn]⟩ := by
      simp only [BPTree.insert, hre]
    rw [hstep]
    obtain ⟨hgl, hgr, holt, hklt⟩ :
        Good t.capacity A2 n2 d none (some pk)
        ∧ Good t.capacity A2 pn d (some pk) none
        ∧ oLt none pk ∧ kLt pk none := hOut.good
    have hout : leafIdxs (NodeT.node [pk] [n2, pn]) = leafIdxs n2 ++ leafIdxs pn := by
      simp [leafIdxs, leafIdxsSeq]
    have hsp := hOut.splice
    simp only [outIdxs] at hsp
    have hgroot : Good t.capacity A2 (NodeT.node [pk] [n2, pn]) (d + 1) none none := by
      refine Good.node [pk] [n2, pn] d none none (by simp) (by simpa using ti.cap_pos)
        (by simp) (by intro k _; exact ⟨trivial, trivial⟩) ?_
      intro j cj hj
      match j with
      | 0 =>
        have : n2 = cj := by simpa using hj
        subst this
        have hlb : lowB (none : Option Nat) [pk] 0 = none := by simp [lowB]
        have hub : upB [pk] (none : Option Nat) 0 = some pk := by simp [upB]
        rw [hlb, hub]
        exact hgl
      | 1 =>
        have : pn = cj := by simpa using hj
        subst this
        have hlb : lowB (none : Option Nat) [pk] 1 = some pk := by simp [lowB]
        have hub : upB [pk] (none : Option Nat) 1 = none := by simp [upB]
        rw [hlb, hub]
        exact hgr
      | m + 2 => simp at hj
    have hti2 : TreeInv ⟨t.capacity, A2, NodeT.node [pk] [n2, pn]⟩ := by
      refine ⟨ti.cap_pos, ⟨d + 1, hgroot⟩, ?_, ?_⟩
      · show (leafIdxs (NodeT.node [pk] [n2, pn])).Nodup
        rw [hout]
        rcases hsp with ⟨ha1, _, _⟩ | ⟨xs, i, ys, hb1, hb2, _, _, _, _⟩
        · rw [ha1]; exact ti.nodup
        · rw [hb2]
          refine nodup_splice xs i t.arena.length ys ?_ ?_
          · rw [← hb1]; exact ti.nodup
          · rw [← hb1]; exact hfresh
      · show ChainOK A2 (leafIdxs (NodeT.node [pk] [n2, pn]))
        rw [hout]
        rcases hsp with ⟨ha1, _, ha3⟩ | ⟨xs, i, ys, hb1, hb2, _, hb4, hb5, hb6⟩
        · rw [ha1]
          exact ChainOK_congr_mem t.arena A2 _ (fun m _ => ha3 m) ti.chain
        · rw [hb2]
          refine ChainOK_splice t.arena A2 i t.arena.length hb4 hb5 hb6 xs ys ?_ ?_ ?_
          · rw [← hb1]; exact ti.chain
          · rw [← hb1]; exact hfresh
          · rw [← hb1]; exact ti.nodup
    refine ⟨hti2, ?_, rfl, ?_, ?_⟩
    · intro x
      have h2 := hOut.mem x
      simp only [outKeys] at h2
      show x ∈ subKeysSeq A2 [n2, pn] ↔ _
      simpa [subKeysSeq] using h2
    · right
      constructor
      · show heightN (NodeT.node [pk] [n2, pn]) = heightN t.root + 1
        have h1 : heightN n2 = d := Good_height hgl
        simp only [heightN, h1, hd]
        omega
      · exact ⟨pk, n2, pn, rfl⟩
    · intro hx
      have hq := hOut.noop hx
      have : (some (pk, pn) : Option (Nat × NodeT)) = none :=
        congrArg (fun r => r.2.2) hq
      exact absurd this (by simp)

/-! ## Reachable states -/

theorem insertAll_master (l : List Nat) :
    ∀ (t : BPTree), TreeInv t →
    TreeInv (insertAll t l)
    ∧ (insertAll t l).capacity = t.capacity
    ∧ (∀ x, x ∈ keySet (insertAll t l) ↔ x ∈ keySet t ∨ x ∈ l) := by
  induction l with
  | nil =>
    intro t ti
    refine ⟨ti, rfl, ?_⟩
    intro x
    simp [insertAll]
  | cons a rest ih =>
    intro t ti
    have hstep : insertAll t (a :: rest) = insertAll (t.insert a) rest := rfl
    have hm := insert_master ti a
    obtain ⟨h1, h2, h3⟩ := ih (t.insert a) hm.1
    refine ⟨by rw [hstep]; exact h1, ?_, ?_⟩
    · rw [hstep, h2, hm.2.2.1]
    · intro x
      rw [hstep, h3 x, hm.2.1 x]
      simp only [List.mem_cons]
      tauto

theorem Reachable_TreeInv {t : BPTree} (h : Reachable t) : TreeInv t := by
  obtain ⟨cap, l, hcap, ht⟩ := h
  rw [ht]
  exact (insertAll_master l (BPTree.new cap) (TreeInv_new cap hcap)).1

theorem keySet_new (cap : Nat) : keySet (BPTree.new cap) = [] := rfl

theorem find_iff_keySet {t : BPTree} (ti : TreeInv t) (k : Nat) :
    t.find k = true ↔ k ∈ keySet t := by
  obtain ⟨d, hg⟩ := ti.good
  exact nodeFind_correct hg k ⟨trivial, trivial⟩

/-! ## Reference counters for `stats` (independent of the implementation) -/

mutual
/-- Every node of a subtree, the subtree's own root included. -/
def nodeList : NodeT → List NodeT
  | .leaf i => [.leaf i]
  | .node ks cs => .node ks cs :: nodeListSeq cs

/-- `nodeList` over a child list. -/
def nodeListSeq : List NodeT → List NodeT
  | [] => []
  | c :: cs => nodeList c ++ nodeListSeq cs
end

/-- Is this an internal (`BPTreeNode`) node? -/
def isInternal : NodeT → Bool
  | .leaf _ => false
  | .node _ _ => true

mutual
theorem num_nodes_eq_filter (n : NodeT) :
    num_nodesN n = ((nodeList n).filter isInternal).length := by
  cases n with
  | leaf i => rfl
  | node ks cs =>
    simp only [num_nodesN, nodeList]
    rw [List.filter_cons_of_pos (show isInternal (NodeT.node ks cs) = true from rfl)]
    simp only [List.length_cons]
    rw [num_nodesSeq_eq_filter cs]
    omega

theorem num_nodesSeq_eq_filter (cs : List NodeT) :
    num_nodesSeq cs = ((nodeListSeq cs).filter isInternal).length := by
  cases cs with
  | nil => rfl
  | cons c rest =>
    simp only [num_nodesSeq, nodeListSeq, List.filter_append, List.length_append]
    rw [num_nodes_eq_filter c, num_nodesSeq_eq_filter rest]
end

mutual
theorem num_leaves_eq_filter (n : NodeT) :
    num_leavesN n = ((nodeList n).filter (fun m => !isInternal m)).length := by
  cases n with
  | leaf i => rfl
  | node ks cs =>
    simp only [num_leavesN, nodeList]
    have hstep : List.filter (fun m => !isInternal m) (NodeT.node ks cs :: nodeListSeq cs)
        = List.filter (fun m => !isInternal m) (nodeListSeq cs) :=
      List.filter_cons_of_neg (by simp [isInternal])
    rw [hstep, num_leavesSeq_eq_filter cs]

theorem num_leavesSeq_eq_filter (cs : List NodeT) :
    num_leavesSeq cs = ((nodeListSeq cs).filter (fun m => !isInternal m)).length := by
  cases cs with
  | nil => rfl
  | cons c rest =>
    simp only [num_leavesSeq, nodeListSeq, List.filter_append, List.length_append]
    rw [num_leaves_eq_filter c, num_leavesSeq_eq_filter rest]
end

mutual
theorem num_keys_eq_subKeys (A : List LeafRec) (n : NodeT) :
    num_keysN A n = (subKeys A n).length := by
  cases n with
  | leaf i =>
    simp only [num_keysN, subKeys, leafKeys]
    cases A[i]? with
    | none => rfl
    | some lf => rfl
  | node ks cs =>
    show num_keysSeq A cs = (subKeysSeq A cs).length
    exact num_keysSeq_eq_subKeys A cs

theorem num_keysSeq_eq_subKeys (A : List LeafRec) (cs : List NodeT) :
    num_keysSeq A cs = (subKeysSeq A cs).length := by
  cases cs with
  | nil => rfl
  | cons c rest =>
    simp only [num_keysSeq, subKeysSeq, List.length_append]
    rw [num_keys_eq_subKeys A c, num_keysSeq_eq_subKeys A rest]
end

/-! ## State-passing embeddings of the read operations

The Python read methods are calls on mutable objects.  To express the
frame property ("reads do not mutate"), each read is embedded a second
time in state-passing style: every method call returns its receiver's
possibly-updated state together with its result, and the caller rebuilds
its own state from what the callees returned.  The theorems below show
the returned state always equals the input state. -/

mutual
/-- State-passing `find` at a node. -/
def findStN (A : List LeafRec) : NodeT → Nat → (List LeafRec × NodeT) × Bool
  | .leaf i, key =>
    ((A, .leaf i),
     match A[i]? with
     | none => false
     | some lf => lf.keys.contains key)
  | .node ks cs, key =>
    let r := findChildSt A cs (bisect_right ks key) key
    ((r.1.1, .node ks r.1.2), r.2)

/-- State-passing recursive call into the selected child. -/
def findChildSt (A : List LeafRec) : List NodeT → Nat → Nat →
    (List LeafRec × List NodeT) × Bool
  | [], _, _ => ((A, []), false)
  | c :: cs, 0, key =>
    let r := findStN A c key
    ((r.1.1, r.1.2 :: cs), r.2)
  | c :: cs, n + 1, key =>
    let r := findChildSt A cs n key
    ((r.1.1, c :: r.1.2), r.2)
end

mutual
theorem findStN_pure (A : List LeafRec) (n : NodeT) (key : Nat) :
    findStN A n key = ((A, n), nodeFind A n key) := by
  cases n with
  | leaf i => rfl
  | node ks cs =>
    show (let r := findChildSt A cs (bisect_right ks key) key
      ((r.1.1, NodeT.node ks r.1.2), r.2)) = _
    rw [findChildSt_pure A cs (bisect_right ks key) key]
    rfl

theorem findChildSt_pure (A : List LeafRec) (cs : List NodeT) (c key : Nat) :
    findChildSt A cs c key = ((A, cs), findChild A cs c key) := by
  cases cs with
  | nil => rfl
  | cons c0 rest =>
    cases c with
    | zero =>
      show (let r := findStN A c0 key; ((r.1.1, r.1.2 :: rest), r.2)) = _
      rw [findStN_pure A c0 key]
      rfl
    | succ m =>
      show (let r := findChildSt A rest m key; ((r.1.1, c0 :: r.1.2), r.2)) = _
      rw [findChildSt_pure A rest m key]
      rfl
end

/-- State-passing `keys` chain walk. -/
def chainKeysSt (A : List LeafRec) : Nat → Nat → List LeafRec × List Nat
  | 0, _ => (A, [])
  | fuel + 1, i =>
    match A[i]? with
    | none => (A, [])
    | some lf =>
      match lf.next with
      | none => (A, lf.keys)
      | some j =>
        let r := chainKeysSt A fuel j
        (r.1, lf.keys ++ r.2)

theorem chainKeysSt_pure (A : List LeafRec) :
    ∀ (fuel i : Nat), chainKeysSt A fuel i = (A, chainKeys A fuel i) := by
  intro fuel
  induction fuel with
  | zero => intro i; rfl
  | succ f ih =>
    intro i
    cases hA : A[i]? with
    | none => simp [chainKeysSt, chainKeys, hA]
    | some lf =>
      cases hn : lf.next with
      | none => simp [chainKeysSt, chainKeys, hA, hn]
      | some j => simp [chainKeysSt, chainKeys, hA, hn, ih j]

/-- State-passing `keys` at a node. -/
def nodeKeysSt (A : List LeafRec) : NodeT → (List LeafRec × NodeT) × List Nat
  | .leaf i =>
    let r := chainKeysSt A (A.length + 1) i
    ((r.1, .leaf i), r.2)
  | .node ks [] => ((A, .node ks []), [])
  | .node ks (child :: rest) =>
    let r := nodeKeysSt A child
    ((r.1.1, .node ks (r.1.2 :: rest)), r.2)

theorem nodeKeysSt_pure (A : List LeafRec) :
    ∀ n : NodeT, nodeKeysSt A n = ((A, n), nodeKeys A n)
  | .leaf i => by
    show (let r := chainKeysSt A (A.length + 1) i; ((r.1, NodeT.leaf i), r.2)) = _
    rw [chainKeysSt_pure A (A.length + 1) i]
    rfl
  | .node ks [] => rfl
  | .node ks (child :: rest) => by
    show (let r := nodeKeysSt A child; ((r.1.1, NodeT.node ks (r.1.2 :: rest)), r.2)) = _
    rw [nodeKeysSt_pure A child]
    rfl

mutual
/-- State-passing `num_nodes`. -/
def numNodesStN : NodeT → NodeT × Nat
  | .leaf i => (.leaf i, 0)
  | .node ks cs =>
    let r := num_nodesStSeq cs
    (.node ks r.1, 1 + r.2)

/-- State-passing `num_nodes` over the child list. -/
def num_nodesStSeq : List NodeT → List NodeT × Nat
  | [] => ([], 0)
  | c :: cs =>
    let r := numNodesStN c
    let r2 := num_nodesStSeq cs
    (r.1 :: r2.1, r.2 + r2.2)
end

mutual
theorem numNodesStN_pure (n : NodeT) : numNodesStN n = (n, num_nodesN n) := by
  cases n with
  | leaf i => rfl
  | node ks cs =>
    show (let r := num_nodesStSeq cs; (NodeT.node ks r.1, 1 + r.2)) = _
    rw [num_nodesStSeq_pure cs]
    rfl

theorem num_nodesStSeq_pure (cs : List NodeT) :
    num_nodesStSeq cs = (cs, num_nodesSeq cs) := by
  cases cs with
  | nil => rfl
  | cons c rest =>
    show (let r := numNodesStN c; let r2 := num_nodesStSeq rest;
      (r.1 :: r2.1, r.2 + r2.2)) = _
    rw [numNodesStN_pure c, num_nodesStSeq_pure rest]
    rfl
end

mutual
/-- State-passing `num_leaves`. -/
def numLeavesStN : NodeT → NodeT × Nat
  | .leaf i => (.leaf i, 1)
  | .node ks cs =>
    let r := num_leavesStSeq cs
    (.node ks r.1, r.2)

/-- State-passing `num_leaves` over the child list. -/
def num_leavesStSeq : List NodeT → List NodeT × Nat
  | [] => ([], 0)
  | c :: cs =>
    let r := numLeavesStN c
    let r2 := num_leavesStSeq cs
    (r.1 :: r2.1, r.2 + r2.2)
end

mutual
theorem numLeavesStN_pure (n : NodeT) : numLeavesStN n = (n, num_leavesN n) := by
  cases n with
  | leaf i => rfl
  | node ks cs =>
    show (let r := num_leavesStSeq cs; (NodeT.node ks r.1, r.2)) = _
    rw [num_leavesStSeq_pure cs]
    rfl

theorem num_leavesStSeq_pure (cs : List NodeT) :
    num_leavesStSeq cs = (cs, num_leavesSeq cs) := by
  cases cs with
  | nil => rfl
  | cons c rest =>
    show (let r := numLeavesStN c; let r2 := num_leavesStSeq rest;
      (r.1 :: r2.1, r.2 + r2.2)) = _
    rw [numLeavesStN_pure c, num_leavesStSeq_pure rest]
    rfl
end

mutual
/-- State-passing `num_keys`. -/
def numKeysStN (A : List LeafRec) : NodeT → (List LeafRec × NodeT) × Nat
  | .leaf i =>
    ((A, .leaf i),
     match A[i]? with
     | none => 0
     | some lf => lf.keys.length)
  | .node ks cs =>
    let r := num_keysStSeq A cs
    ((r.1.1, .node ks r.1.2), r.2)

/-- State-passing `num_keys` over the child list. -/
def num_keysStSeq (A : List LeafRec) : List NodeT → (List LeafRec × List NodeT) × Nat
  | [] => ((A, []), 0)
  | c :: cs =>
    let r := numKeysStN A c
    let r2 := num_keysStSeq r.1.1 cs
    ((r2.1.1, r.1.2 :: r2.1.2), r.2 + r2.2)
end

mutual
theorem numKeysStN_pure (A : List LeafRec) (n : NodeT) :
    numKeysStN A n = ((A, n), num_keysN A n) := by
  cases n with
  | leaf i => rfl
  | node ks cs =>
    show (let r := num_keysStSeq A cs; ((r.1.1, NodeT.node ks r.1.2), r.2)) = _
    rw [num_keysStSeq_pure A cs]
    rfl

theorem num_keysStSeq_pure (A : List LeafRec) (cs : List NodeT) :
    num_keysStSeq A cs = ((A, cs), num_keysSeq A cs) := by
  cases cs with
  | nil => rfl
  | cons c rest =>
    show (let r := numKeysStN A c; let r2 := num_keysStSeq r.1.1 rest;
      ((r2.1.1, r.1.2 :: r2.1.2), r.2 + r2.2)) = _
    rw [numKeysStN_pure A c]
    show (let r2 := num_keysStSeq A rest; ((r2.1.1, c :: r2.1.2), num_keysN A c + r2.2)) = _
    rw [num_keysStSeq_pure A rest]
    rfl
end

/-- State-passing `height`. -/
def heightStN : NodeT → NodeT × Nat
  | .leaf i => (.leaf i, 0)
  | .node ks [] => (.node ks [], 1)
  | .node ks (c :: rest) =>
    let r := heightStN c
    (.node ks (r.1 :: rest), 1 + r.2)

theorem heightStN_pure : ∀ n : NodeT, heightStN n = (n, heightN n)
  | .leaf i => rfl
  | .node ks [] => rfl
  | .node ks (c :: rest) => by
    show (let r := heightStN c; (NodeT.node ks (r.1 :: rest), 1 + r.2)) = _
    rw [heightStN_pure c]
    rfl

/-- State-passing public `find`. -/
def BPTree.findSt (t : BPTree) (key : Nat) : BPTree × Bool :=
  let r := findStN t.arena t.root key
  (⟨t.capacity, r.1.1, r.1.2⟩, r.2)

/-- State-passing public `keys`. -/
def BPTree.keysSt (t : BPTree) : BPTree × List Nat :=
  let r := nodeKeysSt t.arena t.root
  (⟨t.capacity, r.1.1, r.1.2⟩, r.2)

/-- State-passing public `num_nodes`. -/
def BPTree.num_nodesSt (t : BPTree) : BPTree × Nat :=
  let r := numNodesStN t.root
  (⟨t.capacity, t.arena, r.1⟩, r.2)

/-- State-passing public `num_leaves`. -/
def BPTree.num_leavesSt (t : BPTree) : BPTree × Nat :=
  let r := numLeavesStN t.root
  (⟨t.capacity, t.arena, r.1⟩, r.2)

/-- State-passing public `num_keys`. -/
def BPTree.num_keysSt (t : BPTree) : BPTree × Nat :=
  let r := numKeysStN t.arena t.root
  (⟨t.capacity, r.1.1, r.1.2⟩, r.2)

/-- State-passing public `height`. -/
def BPTree.heightSt (t : BPTree) : BPTree × Nat :=
  let r := heightStN t.root
  (⟨t.capacity, t.arena, r.1⟩, r.2 + 1)

/-- State-passing public `stats`: runs the four reads in the order the
source does, threading the tree state through. -/
def BPTree.statsSt (t : BPTree) : BPTree × (Nat × Nat × Nat × Nat) :=
  let h := BPTree.heightSt t
  let nn := BPTree.num_nodesSt h.1
  let nl := BPTree.num_leavesSt nn.1
  let nk := BPTree.num_keysSt nl.1
  (nk.1, (h.2, nn.2, nl.2, nk.2))

/-! ## Checkers for the capacity and balance invariants -/

mutual
/-- Does every node of the subtree hold at most `cap` keys? -/
def capacityOK (cap : Nat) (A : List LeafRec) : NodeT → Bool
  | .leaf i =>
    match A[i]? with
    | none => false
    | some lf => decide (lf.keys.length ≤ cap)
  | .node ks cs => decide (ks.length ≤ cap) && capacityOKSeq cap A cs

/-- `capacityOK` over a child list. -/
def capacityOKSeq (cap : Nat) (A : List LeafRec) : List NodeT → Bool
  | [] => true
  | c :: cs => capacityOK cap A c && capacityOKSeq cap A cs
end

theorem capacityOKSeq_of_children (cap : Nat) (A : List LeafRec) :
    ∀ cs : List NodeT, (∀ (j : Nat) (c : NodeT), cs[j]? = some c →
      capacityOK cap A c = true) → capacityOKSeq cap A cs = true := by
  intro cs
  induction cs with
  | nil => intro _; rfl
  | cons c rest ih =>
    intro h
    show (capacityOK cap A c && capacityOKSeq cap A rest) = true
    rw [h 0 c (by simp), ih (fun j cj hj => h (j + 1) cj (by simpa using hj))]
    rfl

/-- A well-formed subtree passes the capacity check. -/
theorem Good_capacityOK {cap : Nat} {A : List LeafRec} {n : NodeT} {d : Nat}
    {lo hi : Option Nat} (h : Good cap A n d lo hi) :
    capacityOK cap A n = true := by
  induction h with
  | leaf i lo hi lf hA hp hb hl =>
    show capacityOK cap A (.leaf i) = true
    simp [capacityOK, hA, hl]
  | node ks cs d lo hi hlen hcap2 hp hb hch ih =>
    show (decide (ks.length ≤ cap) && capacityOKSeq cap A cs) = true
    rw [capacityOKSeq_of_children cap A cs (fun j c hj => ih j c hj)]
    simp [hcap2]

mutual
/-- The depth of every leaf of the subtree, left to right. -/
def leafDepths : NodeT → List Nat
  | .leaf _ => [0]
  | .node _ cs => (leafDepthsSeq cs).map (· + 1)

/-- `leafDepths` over a child list. -/
def leafDepthsSeq : List NodeT → List Nat
  | [] => []
  | c :: cs => leafDepths c ++ leafDepthsSeq cs
end

theorem mem_leafDepthsSeq (cs : List NodeT) (x : Nat) :
    x ∈ leafDepthsSeq cs ↔ ∃ (j : Nat) (c : NodeT), cs[j]? = some c ∧ x ∈ leafDepths c := by
  induction cs with
  | nil => simp [leafDepthsSeq]
  | cons c cs ih =>
    simp only [leafDepthsSeq, List.mem_append, ih]
    constructor
    · rintro (h | ⟨j, c', hj, hc⟩)
      · exact ⟨0, c, by simp, h⟩
      · exact ⟨j + 1, c', by simpa using hj, hc⟩
    · rintro ⟨j, c', hj, hc⟩
      cases j with
      | zero =>
        have : c = c' := by simpa using hj
        subst this
        exact Or.inl hc
      | succ m => exact Or.inr ⟨m, c', by simpa using hj, hc⟩

/-- All leaves of a well-formed subtree sit at the same depth. -/
theorem Good_leafDepths {cap : Nat} {A : List LeafRec} {n : NodeT} {d : Nat}
    {lo hi : Option Nat} (h : Good cap A n d lo hi) :
    ∀ x ∈ leafDepths n, x = d := by
  induction h with
  | leaf i lo hi lf hA hp hb hl =>
    intro x hx
    simpa [leafDepths] using hx
  | node ks cs d lo hi hlen hcap2 hp hb hch ih =>
    intro x hx
    simp only [leafDepths, List.mem_map] at hx
    obtain ⟨y, hy, hxy⟩ := hx
    obtain ⟨j, c, hj, hc⟩ := (mem_leafDepthsSeq cs y).mp hy
    rw [← hxy, ih j c hj y hc]

/-! ## The claims -/

/-- C1: for any finite sequence of distinct keys inserted in any order
into a tree constructed with capacity ≥ 1, `find(k)` returns `true` for
every inserted key, `false` for every key never inserted, and the length
of `keys()` equals the number of distinct inserted keys. -/
theorem C1_round_trip (cap : Nat) (hcap : 1 ≤ cap) (l : List Nat) (hl : l.Nodup) :
    (∀ k ∈ l, (insertAll (BPTree.new cap) l).find k = true)
    ∧ (∀ k, k ∉ l → (insertAll (BPTree.new cap) l).find k = false)
    ∧ (insertAll (BPTree.new cap) l).keys.length = l.length := by
  obtain ⟨hti, hcap2, hmem⟩ := insertAll_master l (BPTree.new cap) (TreeInv_new cap hcap)
  have hkeyset : ∀ x, x ∈ keySet (insertAll (BPTree.new cap) l) ↔ x ∈ l := by
    intro x
    rw [hmem x, keySet_new]
    simp
  have hfind := find_iff_keySet hti
  refine ⟨?_, ?_, ?_⟩
  · intro k hk
    exact (hfind k).mpr ((hkeyset k).mpr hk)
  · intro k hk
    cases hf : (insertAll (BPTree.new cap) l).find k with
    | false => rfl
    | true => exact absurd ((hkeyset k).mp ((hfind k).mp hf)) hk
  · obtain ⟨d, hg⟩ := hti.good
    have hsorted := (Good_subKeys_facts hg).2
    have hnd : (keySet (insertAll (BPTree.new cap) l)).Nodup :=
      hsorted.imp (fun hab => Nat.ne_of_lt hab)
    have hperm : (keySet (insertAll (BPTree.new cap) l)).Perm l :=
      (List.perm_ext_iff_of_nodup hnd hl).mpr hkeyset
    rw [keys_eq_subKeys hti]
    exact hperm.length_eq

theorem C1_round_trip_witness :
    (1 ≤ 2 ∧ ([3, 1, 2] : List Nat).Nodup)
    ∧ ((∀ k ∈ ([3, 1, 2] : List Nat), (insertAll (BPTree.new 2) [3, 1, 2]).find k = true)
      ∧ (∀ k, k ∉ ([3, 1, 2] : List Nat) →
          (insertAll (BPTree.new 2) [3, 1, 2]).find k = false)
      ∧ (insertAll (BPTree.new 2) [3, 1, 2]).keys.length = ([3, 1, 2] : List Nat).length) :=
  ⟨⟨by decide, by decide⟩, C1_round_trip 2 (by decide) [3, 1, 2] (by decide)⟩

/-- C2: after any sequence of inserts into a tree built with
capacity ≥ 1, `keys()` is strictly increasing (hence duplicate free). -/
theorem C2_keys_sorted (t : BPTree) (h : Reachable t) :
    List.Chain' (· < ·) t.keys := by
  have ti := Reachable_TreeInv h
  rw [keys_eq_subKeys ti]
  obtain ⟨d, hg⟩ := ti.good
  exact List.chain'_iff_pairwise.mpr (Good_subKeys_facts hg).2

theorem C2_keys_sorted_witness :
    List.Chain' (· < ·) (insertAll (BPTree.new 2) [5, 3, 9, 1, 7]).keys :=
  C2_keys_sorted _ ⟨2, [5, 3, 9, 1, 7], by decide, rfl⟩

/-- C3: when an insert overfills a leaf, the leaf splits at
`split_index = (capacity + 1) / 2`: the new right sibling (allocated at
the end of the arena) takes `keys[split_index:]` and the leaf's current
`next` pointer, the original leaf keeps `keys[:split_index]` with `next`
now pointing at the sibling, and the promoted key is the sibling's first
key, which stays in the sibling — nothing is removed
(`take ++ drop = keys`). -/
theorem C3_leaf_split (cap : Nat) (hcap : 1 ≤ cap) (A : List LeafRec)
    (i key : Nat) (lf : LeafRec) (hA : A[i]? = some lf)
    (hovf : cap < (leafInsertKeys lf.keys key).length) :
    leafInsert cap A i key
      = (A.set i ⟨(leafInsertKeys lf.keys key).take ((cap + 1) / 2), some A.length⟩
          ++ [⟨(leafInsertKeys lf.keys key).drop ((cap + 1) / 2), lf.next⟩],
         some (((leafInsertKeys lf.keys key).drop ((cap + 1) / 2)).headD 0, A.length))
    ∧ ((leafInsertKeys lf.keys key).drop ((cap + 1) / 2)).headD 0
        ∈ (leafInsertKeys lf.keys key).drop ((cap + 1) / 2)
    ∧ (leafInsertKeys lf.keys key).take ((cap + 1) / 2)
        ++ (leafInsertKeys lf.keys key).drop ((cap + 1) / 2)
        = leafInsertKeys lf.keys key := by
  refine ⟨?_, ?_, List.take_append_drop _ _⟩
  · simp only [leafInsert, hA]
    rw [if_pos hovf]
  · have hlen : 0 < ((leafInsertKeys lf.keys key).drop ((cap + 1) / 2)).length := by
      rw [List.length_drop]
      omega
    cases hd : (leafInsertKeys lf.keys key).drop ((cap + 1) / 2) with
    | nil => rw [hd] at hlen; simp at hlen
    | cons a t => simp

theorem C3_leaf_split_witness :
    (1 ≤ 1 ∧ ([⟨[5], none⟩] : List LeafRec)[0]? = some ⟨[5], none⟩
      ∧ 1 < (leafInsertKeys [5] 7).length)
    ∧ (leafInsert 1 [⟨[5], none⟩] 0 7
        = (([⟨[5], none⟩] : List LeafRec).set 0
            ⟨(leafInsertKeys [5] 7).take ((1 + 1) / 2),
              some ([⟨[5], none⟩] : List LeafRec).length⟩
            ++ [⟨(leafInsertKeys [5] 7).drop ((1 + 1) / 2), (⟨[5], none⟩ : LeafRec).next⟩],
           some (((leafInsertKeys [5] 7).drop ((1 + 1) / 2)).headD 0,
             ([⟨[5], none⟩] : List LeafRec).length))
      ∧ ((leafInsertKeys [5] 7).drop ((1 + 1) / 2)).headD 0
          ∈ (leafInsertKeys [5] 7).drop ((1 + 1) / 2)
      ∧ (leafInsertKeys [5] 7).take ((1 + 1) / 2)
          ++ (leafInsertKeys [5] 7).drop ((1 + 1) / 2) = leafInsertKeys [5] 7) :=
  ⟨⟨by decide, by decide, by decide⟩,
   C3_leaf_split 1 (by decide) [⟨[5], none⟩] 0 7 ⟨[5], none⟩ (by decide) (by decide)⟩

/-- C4: when inserting a separator and child overfills an internal node,
it splits at `split_index = (capacity + 1) / 2`: the promoted key is the
(post-insertion) key at `split_index`, which afterwards is present in
neither side; the new right sibling takes `keys[split_index+1:]` and
`children[split_index+1:]` (indices relative to the pre-removal lists)
and the node keeps `keys[:split_index]` and `children[:split_index+1]`. -/
theorem C4_node_split (cap : Nat) (hcap : 1 ≤ cap) (ks : List Nat)
    (cs : List NodeT) (position key : Nat) (pointer : NodeT)
    (hsort : (pyInsert ks position key).Pairwise (· < ·))
    (hovf : cap < (pyInsert ks position key).length) :
    insert_here cap ks cs position key pointer
      = (((pyInsert ks position key).take ((cap + 1) / 2),
          (pyInsert cs (position + 1) pointer).take ((cap + 1) / 2 + 1)),
         some ((pyInsert ks position key).getD ((cap + 1) / 2) 0,
           NodeT.node ((pyInsert ks position key).drop ((cap + 1) / 2 + 1))
             ((pyInsert cs (position + 1) pointer).drop ((cap + 1) / 2 + 1))))
    ∧ (pyInsert ks position key).getD ((cap + 1) / 2) 0
        ∉ (pyInsert ks position key).take ((cap + 1) / 2)
    ∧ (pyInsert ks position key).getD ((cap + 1) / 2) 0
        ∉ (pyInsert ks position key).drop ((cap + 1) / 2 + 1) := by
  have hs : (cap + 1) / 2 < (pyInsert ks position key).length := by omega
  have hgd : (pyInsert ks position key).getD ((cap + 1) / 2) 0
      = (pyInsert ks position key)[(cap + 1) / 2] := List.getD_eq_getElem _ 0 hs
  have hself : (pyInsert ks position key)[(cap + 1) / 2]?
      = some (pyInsert ks position key)[(cap + 1) / 2] := List.getElem?_eq_getElem hs
  refine ⟨?_, ?_, ?_⟩
  · rw [hgd]
    exact insert_here_split cap ks cs position key pointer hsort hovf hs
  · rw [hgd]
    intro hmem
    obtain ⟨m, hms, hmk⟩ := mem_take_getElem? _ _ _ hmem
    have := pairwise_lt_getElem? hsort hmk hself hms
    omega
  · rw [hgd]
    intro hmem
    obtain ⟨m, hms, hmk⟩ := mem_drop_getElem? _ _ _ hmem
    have := pairwise_lt_getElem? hsort hself hmk (by omega)
    omega

theorem C4_node_split_witness :
    (1 ≤ 1 ∧ (pyInsert [4] 1 8).Pairwise (· < ·) ∧ 1 < (pyInsert [4] 1 8).length)
    ∧ (insert_here 1 [4] [NodeT.leaf 0, NodeT.leaf 1] 1 8 (NodeT.leaf 2)
        = (((pyInsert [4] 1 8).take ((1 + 1) / 2),
            (pyInsert [NodeT.leaf 0, NodeT.leaf 1] (1 + 1) (NodeT.leaf 2)).take ((1 + 1) / 2 + 1)),
           some ((pyInsert [4] 1 8).getD ((1 + 1) / 2) 0,
             NodeT.node ((pyInsert [4] 1 8).drop ((1 + 1) / 2 + 1))
               ((pyInsert [NodeT.leaf 0, NodeT.leaf 1] (1 + 1) (NodeT.leaf 2)).drop
                 ((1 + 1) / 2 + 1))))
      ∧ (pyInsert [4] 1 8).getD ((1 + 1) / 2) 0 ∉ (pyInsert [4] 1 8).take ((1 + 1) / 2)
      ∧ (pyInsert [4] 1 8).getD ((1 + 1) / 2) 0 ∉ (pyInsert [4] 1 8).drop ((1 + 1) / 2 + 1)) :=
  ⟨⟨by decide, by decide, by decide⟩,
   C4_node_split 1 (by decide) [4] [NodeT.leaf 0, NodeT.leaf 1] 1 8 (NodeT.leaf 2)
     (by decide) (by decide)⟩

/-- C5: inserting a key that is already present is a silent no-op: the
entire tree state is unchanged, so a second insert of the same key
yields the same state (hence the same `keys()` and the same `stats()`)
as the first. -/
theorem C5_duplicate_noop (t : BPTree) (h : Reachable t) (k : Nat) :
    (t.find k = true → t.insert k = t)
    ∧ (t.insert k).insert k = t.insert k
    ∧ ((t.insert k).insert k).keys = (t.insert k).keys
    ∧ ((t.insert k).insert k).stats = (t.insert k).stats := by
  have ti := Reachable_TreeInv h
  have hm := insert_master ti k
  have hnoop2 : (t.insert k).insert k = t.insert k := by
    have ti2 : TreeInv (t.insert k) := hm.1
    have hm2 := insert_master ti2 k
    exact hm2.2.2.2.2 ((hm.2.1 k).mpr (Or.inr rfl))
  refine ⟨?_, hnoop2, by rw [hnoop2], by rw [hnoop2]⟩
  intro hf
  exact hm.2.2.2.2 ((find_iff_keySet ti k).mp hf)

theorem C5_duplicate_noop_witness :
    ((insertAll (BPTree.new 2) [4, 9]).find 4 = true →
      (insertAll (BPTree.new 2) [4, 9]).insert 4 = insertAll (BPTree.new 2) [4, 9])
    ∧ ((insertAll (BPTree.new 2) [4, 9]).insert 4).insert 4
        = (insertAll (BPTree.new 2) [4, 9]).insert 4
    ∧ (((insertAll (BPTree.new 2) [4, 9]).insert 4).insert 4).keys
        = ((insertAll (BPTree.new 2) [4, 9]).insert 4).keys
    ∧ (((insertAll (BPTree.new 2) [4, 9]).insert 4).insert 4).stats
        = ((insertAll (BPTree.new 2) [4, 9]).insert 4).stats :=
  C5_duplicate_noop (insertAll (BPTree.new 2) [4, 9]) ⟨2, [4, 9], by decide, rfl⟩ 4

/-- C6: in every state reachable by inserts on a tree built with
capacity ≥ 1, no leaf and no internal node holds more than `capacity`
keys. -/
theorem C6_capacity (t : BPTree) (h : Reachable t) :
    capacityOK t.capacity t.arena t.root = true := by
  have ti := Reachable_TreeInv h
  obtain ⟨d, hg⟩ := ti.good
  exact Good_capacityOK hg

theorem C6_capacity_witness :
    capacityOK (insertAll (BPTree.new 1) [1, 2, 3, 4, 5, 6, 7]).capacity
      (insertAll (BPTree.new 1) [1, 2, 3, 4, 5, 6, 7]).arena
      (insertAll (BPTree.new 1) [1, 2, 3, 4, 5, 6, 7]).root = true :=
  C6_capacity _ ⟨1, [1, 2, 3, 4, 5, 6, 7], by decide, rfl⟩

/-- C7 (counterexample): the constructor performs no capacity check, so a
tree built with capacity 0 is a perfectly usable tree rather than a
fail-fast error: inserting 5 and finding it back works, and the tree
lists its key. -/
theorem C7_counterexample :
    ((BPTree.new 0).insert 5).find 5 = true
    ∧ ((BPTree.new 0).insert 5).keys = [5]
    ∧ (BPTree.new 0).capacity = 0 := by
  refine ⟨by decide, by decide, rfl⟩

/-- C7 (amended): construction performs no validation of `capacity`
whatsoever — for every capacity, including non-positive ones, it
succeeds and returns the single-empty-leaf tree; `capacity ≥ 1` is an
unchecked caller obligation. -/
theorem C7_no_validation :
    (∀ cap : Nat, BPTree.new cap = ⟨cap, [⟨[], none⟩], NodeT.leaf 0⟩)
    ∧ ((BPTree.new 0).insert 5).find 5 = true :=
  ⟨fun _ => rfl, by decide⟩

/-- C8: in every reachable state all leaves sit at the same depth
(namely the root's height), and an insert either keeps the height or,
exactly when the root promotes, increases it by one by making a new
root with the single promoted key and exactly two children. -/
theorem C8_balance (t : BPTree) (h : Reachable t) (k : Nat) :
    (∀ x ∈ leafDepths t.root, x = heightN t.root)
    ∧ ((t.insert k).height = t.height
       ∨ ((t.insert k).height = t.height + 1
          ∧ ∃ pk a b, (t.insert k).root = NodeT.node [pk] [a, b])) := by
  have ti := Reachable_TreeInv h
  obtain ⟨d, hg⟩ := ti.good
  constructor
  · intro x hx
    rw [Good_height hg]
    exact Good_leafDepths hg x hx
  · have hm := insert_master ti k
    rcases hm.2.2.2.1 with h1 | ⟨h1, h2⟩
    · left
      show heightN (t.insert k).root + 1 = heightN t.root + 1
      rw [h1]
    · right
      refine ⟨?_, h2⟩
      show heightN (t.insert k).root + 1 = heightN t.root + 1 + 1
      rw [h1]

theorem C8_balance_witness :
    (∀ x ∈ leafDepths (insertAll (BPTree.new 1) [1, 2, 3]).root,
      x = heightN (insertAll (BPTree.new 1) [1, 2, 3]).root)
    ∧ (((insertAll (BPTree.new 1) [1, 2, 3]).insert 4).height
        = (insertAll (BPTree.new 1) [1, 2, 3]).height
      ∨ (((insertAll (BPTree.new 1) [1, 2, 3]).insert 4).height
          = (insertAll (BPTree.new 1) [1, 2, 3]).height + 1
        ∧ ∃ pk a b, ((insertAll (BPTree.new 1) [1, 2, 3]).insert 4).root
            = NodeT.node [pk] [a, b])) :=
  C8_balance _ ⟨1, [1, 2, 3], by decide, rfl⟩ 4

/-- C9: `stats()` returns the four-tuple
`(height, number of internal nodes, number of leaves, number of leaf
keys)` in that order, where the reported height is the root's height
plus one (so the fresh tree, whose root is the initial empty leaf,
reports `(1, 0, 1, 0)`), the node count counts internal nodes only and
the key count counts leaf-level keys only. -/
theorem C9_stats (t : BPTree) (cap : Nat) :
    t.stats = (heightN t.root + 1,
      ((nodeList t.root).filter isInternal).length,
      ((nodeList t.root).filter (fun m => !isInternal m)).length,
      (subKeys t.arena t.root).length)
    ∧ (BPTree.new cap).stats = (1, 0, 1, 0) := by
  constructor
  · show (t.height, t.num_nodes, t.num_leaves, t.num_keys) = _
    rw [show t.num_nodes = num_nodesN t.root from rfl, num_nodes_eq_filter,
      show t.num_leaves = num_leavesN t.root from rfl, num_leaves_eq_filter,
      show t.num_keys = num_keysN t.arena t.root from rfl, num_keys_eq_subKeys]
    rfl
  · rfl

/-- C10: none of the read operations mutates the tree: embedded in
state-passing style, `find`, `keys`, `num_nodes`, `num_leaves`,
`num_keys`, `height` and `stats` all return the tree unchanged together
with the same results the pure embedding computes, so any interleaving
of reads between inserts leaves both the state and the results
unchanged. -/
theorem C10_reads_pure (t : BPTree) (key : Nat) :
    t.findSt key = (t, t.find key)
    ∧ t.keysSt = (t, t.keys)
    ∧ t.num_nodesSt = (t, t.num_nodes)
    ∧ t.num_leavesSt = (t, t.num_leaves)
    ∧ t.num_keysSt = (t, t.num_keys)
    ∧ t.heightSt = (t, t.height)
    ∧ t.statsSt = (t, t.stats) := by
  have h1 : t.findSt key = (t, t.find key) := by
    show (let r := findStN t.arena t.root key
      ((⟨t.capacity, r.1.1, r.1.2⟩ : BPTree), r.2)) = _
    rw [findStN_pure t.arena t.root key]
    rfl
  have h2 : t.keysSt = (t, t.keys) := by
    show (let r := nodeKeysSt t.arena t.root
      ((⟨t.capacity, r.1.1, r.1.2⟩ : BPTree), r.2)) = _
    rw [nodeKeysSt_pure t.arena t.root]
    rfl
  have h3 : t.num_nodesSt = (t, t.num_nodes) := by
    show (let r := numNodesStN t.root
      ((⟨t.capacity, t.arena, r.1⟩ : BPTree), r.2)) = _
    rw [numNodesStN_pure t.root]
    rfl
  have h4 : t.num_leavesSt = (t, t.num_leaves) := by
    show (let r := numLeavesStN t.root
      ((⟨t.capacity, t.arena, r.1⟩ : BPTree), r.2)) = _
    rw [numLeavesStN_pure t.root]
    rfl
  have h5 : t.num_keysSt = (t, t.num_keys) := by
    show (let r := numKeysStN t.arena t.root
      ((⟨t.capacity, r.1.1, r.1.2⟩ : BPTree), r.2)) = _
    rw [numKeysStN_pure t.arena t.root]
    rfl
  have h6 : t.heightSt = (t, t.height) := by
    show (let r := heightStN t.root
      ((⟨t.capacity, t.arena, r.1⟩ : BPTree), r.2 + 1)) = _
    rw [heightStN_pure t.root]
    rfl
  have h7 : t.statsSt = (t, t.stats) := by
    show (let h := BPTree.heightSt t
      let nn := BPTree.num_nodesSt h.1
      let nl := BPTree.num_leavesSt nn.1
      let nk := BPTree.num_keysSt nl.1
      (nk.1, (h.2, nn.2, nl.2, nk.2))) = _
    rw [h6]
    show (let nn := BPTree.num_nodesSt t
      let nl := BPTree.num_leavesSt nn.1
      let nk := BPTree.num_keysSt nl.1
      (nk.1, (t.height, nn.2, nl.2, nk.2))) = _
    rw [h3]
    show (let nl := BPTree.num_leavesSt t
      let nk := BPTree.num_keysSt nl.1
      (nk.1, (t.height, t.num_nodes, nl.2, nk.2))) = _
    rw [h4]
    show (let nk := BPTree.num_keysSt t
      (nk.1, (t.height, t.num_nodes, t.num_leaves, nk.2))) = _
    rw [h5]
    rfl
  exact ⟨h1, h2, h3, h4, h5, h6, h7⟩
